import Mathlib

/-!
Verification of the explicit-free-list dynamic memory allocator in `mm.c`.

The heap is modelled byte-accurately: memory is a total function from byte
addresses (`Nat`) to byte values; 64-bit words are read and written in
little-endian order, eight bytes at a time, exactly as the C code's
`size_t` loads and stores do on the target platform.  All `size_t`
arithmetic in the embedded code is performed modulo `2^64` (`add64`,
`sub64`, `mul64`, `align`), so wrap-around behaviour of the C source is
preserved.  The heap region starts at address 0 (the address returned by
the first successful `mem_sbrk`), and the null pointer is address 0 as
well; the code never stores a block at address 0 (the prologue word lives
there), so no confusion arises.  `mem_sbrk` itself is not part of the
repository (memlib is an external collaborator); it is modelled from the
spec as a monotone heap extension with a fixed capacity `maxH`, failing
with `(void * ) -1 = 2^64 - 1` exactly when the request would exceed the
capacity.
-/

set_option maxRecDepth 100000

namespace MM

/-- 64-bit machine addition, as performed on C `size_t` values. -/
def add64 (a b : Nat) : Nat := (a + b) % 2 ^ 64

/-- 64-bit machine subtraction (two's complement wrap-around). -/
def sub64 (a b : Nat) : Nat := (a + (2 ^ 64 - b % 2 ^ 64)) % 2 ^ 64

/-- 64-bit machine multiplication. -/
def mul64 (a b : Nat) : Nat := a * b % 2 ^ 64

/-- `align` from mm.c: rounds up to the nearest multiple of 16, with the
`x + ALIGNMENT - 1` addition wrapping at 2^64 as `size_t` does. -/
def align (x : Nat) : Nat := 16 * ((x + 15) % 2 ^ 64 / 16)

/-- Write one byte to memory (stores are always reduced mod 256). -/
def byteW (m : Nat → Nat) (a v : Nat) : Nat → Nat :=
  fun x => if x = a then v % 256 else m x

/-- Write the `k` low-order bytes of `v` at addresses `a, a+1, ...`,
little-endian. -/
def writeN (m : Nat → Nat) (a v : Nat) : Nat → (Nat → Nat)
  | 0 => m
  | k + 1 => byteW (writeN m a v k) (a + k) (v / 256 ^ k)

/-- Read `k` bytes starting at `a`, assembled little-endian. -/
def readN (m : Nat → Nat) (a : Nat) : Nat → Nat
  | 0 => 0
  | k + 1 => readN m a k + m (a + k) % 256 * 256 ^ k

/-- Store a 64-bit word (a `size_t` or a pointer) at byte address `a`. -/
def wW (m : Nat → Nat) (a v : Nat) : Nat → Nat := writeN m a v 8

/-- Load a 64-bit word from byte address `a`. -/
def rW (m : Nat → Nat) (a : Nat) : Nat := readN m a 8

/-- Allocator state: the byte memory, the current heap top `hi` (the heap
occupies addresses `[0, hi)`), the free-list root `first` (0 = NULL), and
the capacity `maxH` of the underlying `mem_sbrk` service. -/
structure St where
  mem : Nat → Nat
  hi : Nat
  first : Nat
  maxH : Nat

/-- `lsb_a` from mm.c: OR the allocated bit into a size word. -/
def lsb_a (size a : Nat) : Nat := size ||| a

/-- `get_size` from mm.c: mask off the low bit of the word at `b`. -/
def get_size (m : Nat → Nat) (b : Nat) : Nat := rW m b - rW m b % 2

/-- `write_value` from mm.c. -/
def write_value (m : Nat → Nat) (b v : Nat) : Nat → Nat := wW m b v

/-- `get_allocated` from mm.c: a NULL pointer counts as allocated, else
test the low bit of the word at `b`. -/
def get_allocated (m : Nat → Nat) (b : Nat) : Bool :=
  if b = 0 then true else rW m b % 2 == 1

/-- `next_blk` from mm.c: `b + get_size(b) + 2*sizeof(blk)`. -/
def next_blk (m : Nat → Nat) (b : Nat) : Nat :=
  add64 (add64 b (get_size m b)) 16

/-- `prev_blk` from mm.c: read the predecessor's footer at `b - 8` and
step back over it. -/
def prev_blk (m : Nat → Nat) (b : Nat) : Nat :=
  sub64 (sub64 b (get_size m (sub64 b 8))) 16

/-- `add_node` from mm.c: push the free block with header at `b` onto the
head of the free list (its node lives at `b + 8`): the node's `next` is
the old list head, its `prev` is NULL, the old head's `prev` (if any) is
pointed back at the node, and the root is updated. -/
def add_node (s : St) (b : Nat) : St :=
  { s with
    mem :=
      if s.first ≠ 0 then
        wW (wW (wW s.mem (add64 b 8) s.first) (add64 (add64 b 8) 8) 0)
          (add64 s.first 8) (add64 b 8)
      else wW (wW s.mem (add64 b 8) s.first) (add64 (add64 b 8) 8) 0,
    first := add64 b 8 }

/-- The four structural cases of `remove_node` from mm.c, taking the
values of the node's `prev` and `next` fields (the C locals `prev_node`
and `next_node`) as parameters; the final case keeps the source's
redundant `prev == NULL` test as the fall-through `else`. -/
def removeGo (s : St) (p nx : Nat) : St :=
  if p ≠ 0 ∧ nx ≠ 0 then
    { s with mem := wW (wW s.mem p nx) (add64 nx 8) p }
  else if p = 0 ∧ nx ≠ 0 then
    { s with mem := wW s.mem (add64 nx 8) 0, first := nx }
  else if p ≠ 0 ∧ nx = 0 then
    { s with mem := wW s.mem p 0 }
  else
    { s with first := 0 }

/-- `remove_node` from mm.c: unlink the node at `b + 8` using its own
`prev`/`next` fields. -/
def remove_node (s : St) (b : Nat) : St :=
  removeGo s (rW s.mem (add64 (add64 b 8) 8)) (rW s.mem (add64 b 8))

/-- The tail of every merging case of `coalesce`: write the merged
header/footer (size `size2`, free) at `at2` and push the block onto the
free list. -/
def coalMerge (s : St) (at2 size2 : Nat) : St :=
  add_node
    { s with
      mem := wW (wW s.mem at2 (lsb_a size2 0)) (add64 (add64 at2 size2) 8)
        (lsb_a size2 0) }
    at2

/-- The four merge cases of `coalesce` from mm.c, after the neighbour
block pointers (`prevB`, `nextB`, with 0 for NULL) have been determined;
sizes are read from the pre-merge memory exactly as the source does. -/
def coalGo (s : St) (b prevB nextB : Nat) : St :=
  if get_allocated s.mem prevB && get_allocated s.mem nextB then
    add_node s b
  else if get_allocated s.mem prevB && !get_allocated s.mem nextB then
    coalMerge (remove_node s nextB) b
      (add64 (get_size s.mem b) (add64 (get_size s.mem nextB) 16))
  else if !get_allocated s.mem prevB && get_allocated s.mem nextB then
    coalMerge (remove_node s prevB) prevB
      (add64 (get_size s.mem b) (add64 (get_size s.mem prevB) 16))
  else
    coalMerge (remove_node (remove_node s prevB) nextB) prevB
      (add64 (get_size s.mem b)
        (add64 (add64 (get_size s.mem prevB) (get_size s.mem nextB)) 32))

/-- `coalesce` from mm.c.  The first branch recognises the start of the
heap by the zero size of the word before the block, the second the end of
the heap (reading `blkptr + size + 8`), otherwise both neighbours are
computed; the merge cases are in `coalGo`. -/
def coalesce (s : St) (b : Nat) : St :=
  if get_size s.mem (sub64 b 8) = 0 then
    coalGo s b 0 (next_blk s.mem b)
  else if get_size s.mem (add64 (add64 b (get_size s.mem b)) 8) = 0 then
    coalGo s b (prev_blk s.mem b) 0
  else
    coalGo s b (prev_blk s.mem b) (next_blk s.mem b)

/-- Last step of `split`: having written the remainder's header/footer
(at `nxt`, size `rest`), coalesce it with a free successor or insert it
into the free list. -/
def splitChk (s : St) (nxt rest : Nat) : St :=
  if get_allocated s.mem (add64 (add64 nxt rest) 16) = false then
    coalesce s nxt
  else add_node s nxt

/-- Middle step of `split`: write the remainder's boundary tags. -/
def splitTail (s : St) (nxt rest : Nat) : St :=
  splitChk
    { s with
      mem := wW (wW s.mem nxt (lsb_a rest 0)) (add64 (add64 nxt rest) 8)
        (lsb_a rest 0) }
    nxt rest

/-- First step of `split` from mm.c: write the allocated block's tags
(header at `ptr`, footer at `ptr + size + 8`) and unlink its node. -/
def splitMid (s : St) (ptr size : Nat) : St :=
  remove_node
    { s with
      mem := wW (wW s.mem ptr (lsb_a size 1)) (add64 (add64 ptr size) 8)
        (lsb_a size 1) }
    ptr

/-- `split` from mm.c: the old size is read before the header is
overwritten; the remainder starts at `ptr + size + 16` with size
`oldSize - size - 16`. -/
def split (s : St) (ptr size : Nat) : St :=
  splitTail (splitMid s ptr size) (add64 (add64 ptr size) 16)
    (sub64 (sub64 (get_size s.mem ptr) size) 16)

/-- The no-split branch of `place`: mark the whole block (size `bsize`)
allocated and unlink it. -/
def placeFull (s : St) (b bsize : Nat) : St :=
  remove_node
    { s with
      mem := wW (wW s.mem b (lsb_a bsize 1)) (add64 (add64 b bsize) 8)
        (lsb_a bsize 1) }
    b

/-- `place` from mm.c: split if at least 32 bytes would remain, otherwise
allocate the whole block. -/
def place (s : St) (b size : Nat) : St :=
  if 32 ≤ sub64 (get_size s.mem b) size then split s b size
  else placeFull s b (get_size s.mem b)

/-- Modelled from the spec: the heap-growth primitive `mem_sbrk` of
memlib, which is not part of this repository.  It extends the heap
monotonically by `bytes` and returns the previous heap top, or the
failure value `(void * ) -1 = 2^64 - 1` when the request would exceed the
capacity `maxH` of the underlying region. -/
def mem_sbrk (s : St) (bytes : Nat) : Nat × St :=
  if s.hi + bytes ≤ s.maxH then (s.hi, { s with hi := s.hi + bytes })
  else (2 ^ 64 - 1, s)

/-- The memory a successful `expand_heap` has written just before its
free-list surgery: new epilogue at `hi + bytes - 8`, new footer at
`hi + bytes - 16`, new header over the old epilogue at `hi - 8` (`bytes`
is the already-aligned request, `hi` the old heap top returned by
`mem_sbrk`). -/
def expMem (s : St) (bytes : Nat) : Nat → Nat :=
  wW (wW (wW s.mem (sub64 (add64 s.hi bytes) 8) (lsb_a 0 1))
      (sub64 (add64 s.hi bytes) 16) (lsb_a (sub64 bytes 16) 0))
    (sub64 s.hi 8) (lsb_a (sub64 bytes 16) 0)

/-- The state at the same point: grown heap with `expMem`. -/
def expSt (s : St) (bytes : Nat) : St :=
  { s with mem := expMem s bytes, hi := s.hi + bytes }

/-- `expand_heap` from mm.c: align the request, grow via `mem_sbrk`,
write the new epilogue and the header/footer of the freshly created free
block over the old epilogue (`expMem`/`expSt`), then coalesce with a free
predecessor (the source only takes that branch when `prev_blk` is
non-NULL, since NULL counts as allocated) or insert the new block into
the free list.  Returns the block pointer, or NULL (0) on failure. -/
def expand_heap (s : St) (bytes0 : Nat) : Nat × St :=
  if (mem_sbrk s (align bytes0)).1 ≠ 2 ^ 64 - 1 then
    if get_allocated (expMem s (align bytes0))
        (prev_blk (expMem s (align bytes0)) (sub64 s.hi 8)) = false then
      (prev_blk (expMem s (align bytes0)) (sub64 s.hi 8),
        coalesce (expSt s (align bytes0)) (sub64 s.hi 8))
    else (sub64 s.hi 8, add_node (expSt s (align bytes0)) (sub64 s.hi 8))
  else (0, s)

/-- `first_fit` from mm.c: walk the free list from `start`, returning the
first block that is free and large enough, else NULL.  The C loop
terminates exactly when the list is acyclic; the model uses explicit fuel,
which is always sufficient in well-formed states. -/
def first_fit (m : Nat → Nat) (size : Nat) : Nat → Nat → Nat
  | 0, _ => 0
  | fuel + 1, start =>
    if start = 0 then 0
    else
      let b := sub64 start 8
      if get_allocated m b = false ∧ size ≤ get_size m b then b
      else first_fit m size fuel (rW m start)

/-- `malloc` from mm.c. -/
def malloc (s : St) (size0 : Nat) : Nat × St :=
  if size0 = 0 then (0, s)
  else
    let size := align size0
    let b := first_fit s.mem size (s.hi + 1) s.first
    if b ≠ 0 then (add64 b 8, place s b size)
    else
      let extendsize := if 4096 < add64 size 16 then add64 size 16 else 4096
      let r := expand_heap s extendsize
      if r.1 = 0 then (0, r.2)
      else (add64 r.1 8, place r.2 r.1 size)

/-- The two stores `free` performs before coalescing: header at `h`
marked free, then the footer at `h + get_size(h) + 8`, where the size is
re-read from the freshly written header exactly as the source does. -/
def freedMem (s : St) (h : Nat) : Nat → Nat :=
  wW (wW s.mem h (lsb_a (get_size s.mem h) 0))
    (add64 (add64 h (get_size (wW s.mem h (lsb_a (get_size s.mem h) 0)) h)) 8)
    (lsb_a (get_size (wW s.mem h (lsb_a (get_size s.mem h) 0)) h) 0)

/-- `free` from mm.c: a no-op on NULL and on blocks whose allocated bit is
already clear; otherwise rewrite header and footer as free (`freedMem`)
and coalesce. -/
def free (s : St) (ptr : Nat) : St :=
  if ptr = 0 then s
  else
    if get_allocated s.mem (sub64 ptr 8) = false then s
    else coalesce { s with mem := freedMem s (sub64 ptr 8) } (sub64 ptr 8)

/-- Byte-wise `mem_memcpy` (memlib; modelled from the spec as the usual
non-overlapping byte copy, reading all source bytes from the original
memory). -/
def mem_memcpy (m : Nat → Nat) (dst src : Nat) : Nat → (Nat → Nat)
  | 0 => m
  | k + 1 => byteW (mem_memcpy m dst src k) (add64 dst k) (m (add64 src k))

/-- Byte-wise `memset` (libc; modelled from the spec: store `v` into
`count` consecutive bytes). -/
def mem_memset (m : Nat → Nat) (p v : Nat) : Nat → (Nat → Nat)
  | 0 => m
  | k + 1 => byteW (mem_memset m p v k) (add64 p k) v

/-- `realloc` from mm.c.  The source reads the old block's header BEFORE
the NULL check: `get_size(oldptr - 8)`.  For a null `oldptr` that load is
at address `2^64 - 8`, inside the never-mapped top page of the modelled
target (the page holding the `(void * ) -1` sentinel), so the call
faults before it can reach the `oldptr == NULL` branch; the fault is
modelled as `none`, exactly as the later `mem_memcpy` through a null
pointer is.  For a non-null `oldptr` the load is an ordinary heap read.
When the internal `malloc` fails and the old size is non-zero, the
unchecked `mem_memcpy` writes through the null pointer and the process
faults; that path is `none` as well. -/
def realloc (s : St) (op n : Nat) : Option (Nat × St) :=
  let h := sub64 op 8
  if op = 0 then none
  else
    let osz := get_size s.mem h
    if n = 0 then some (0, free s op)
    else
      let needed := add64 (align n) 16
      if needed ≤ osz then some (op, s)
      else
        let r := malloc s n
        if r.1 = 0 ∧ osz ≠ 0 then none
        else some (r.1,
          free { r.2 with mem := mem_memcpy r.2.mem r.1 op osz } op)

/-- `calloc` from mm.c: the byte count is the `size_t` product
`size * nmemb` (wrapping at 2^64), then `malloc` and, on success,
`memset` to zero. -/
def calloc (s : St) (nmemb size : Nat) : Nat × St :=
  let sz := mul64 size nmemb
  let r := malloc s sz
  if r.1 ≠ 0 then (r.1, { r.2 with mem := mem_memset r.2.mem r.1 0 sz })
  else r

/-- `mm_init` from mm.c: grab 4096 bytes, write prologue, the initial
4064-byte free block's header and footer, the epilogue, and initialise
the free list with that single block. -/
def mm_init (s : St) : Bool × St :=
  let r := mem_sbrk s 4096
  let sh := r.1
  let s1 := r.2
  if sh = 2 ^ 64 - 1 then (false, s)
  else
    let m1 := wW s1.mem sh (lsb_a 0 1)
    let m2 := wW m1 (add64 sh 8) (lsb_a (4096 - 4 * 8) 0)
    let m3 := wW m2 (add64 sh 4080) (lsb_a (4096 - 4 * 8) 0)
    let m4 := wW m3 (add64 sh 4088) (lsb_a 0 1)
    let fst := add64 sh 16
    let m5 := wW m4 fst 0
    let m6 := wW m5 (add64 fst 8) 0
    (true, { s1 with mem := m6, first := fst })

/-- The pristine machine state: all-zero memory, empty heap, capacity
`maxH`. -/
def initState (maxH : Nat) : St :=
  { mem := fun _ => 0, hi := 0, first := 0, maxH := maxH }

/-! ### Specification-side view of the heap

A heap state is summarised by a list of block descriptors (address of the
header, payload size, allocated bit) tiling the region between prologue
and epilogue, together with the free list as a list of node addresses in
list order. -/

/-- A block descriptor: header address, payload size, allocated flag. -/
structure BlockD where
  addr : Nat
  bsize : Nat
  alloc : Bool
deriving DecidableEq, Repr

/-- The header/footer word of a block: size with the allocated bit. -/
def encB (b : BlockD) : Nat := b.bsize + (if b.alloc then 1 else 0)

/-- The blocks tile the heap: the first header at `a`, each next header
right after the previous block's footer, ending exactly at `e` (the
epilogue address). -/
def tilesB : Nat → List BlockD → Nat → Bool
  | a, [], e => a == e
  | a, b :: r, e => (b.addr == a) && tilesB (a + b.bsize + 16) r e

/-- Header and footer of `b` hold the encoded word; sizes are positive
multiples of 16. -/
def BlockOK (m : Nat → Nat) (b : BlockD) : Prop :=
  rW m b.addr = encB b ∧ rW m (b.addr + 8 + b.bsize) = encB b ∧
    b.bsize % 16 = 0 ∧ 16 ≤ b.bsize

/-- The free list stored in memory: starting at `cur` with expected
back-link `pa`, the chain of nodes is exactly `l`, ending at NULL. -/
def chainB (m : Nat → Nat) : Nat → Nat → List Nat → Bool
  | cur, _, [] => cur == 0
  | cur, pa, x :: r => (cur == x) && (rW m (x + 8) == pa) && chainB m (rW m x) x r

/-- Node addresses (payload starts) of the free blocks, in heap order. -/
def freeNodes (bs : List BlockD) : List Nat :=
  (bs.filter (fun b => !b.alloc)).map (fun b => b.addr + 8)

/-- A chain segment: starting at `cur` with back-link `pa`, the nodes are
exactly `l` and the last node's forward link is `nxt` (`chainB` is the
special case `nxt = 0`). -/
def chainSegB (m : Nat → Nat) : Nat → Nat → List Nat → Nat → Bool
  | cur, _, [], nxt => cur == nxt
  | cur, pa, x :: r, nxt =>
    (cur == x) && (rW m (x + 8) == pa) && chainSegB m (rW m x) x r nxt

/-- Geometric facts about a set of free-list nodes: each node's two words
lie in the addressable low range, and distinct nodes are at least 32
bytes apart (they live in payloads of distinct blocks). -/
def NodeEnv (fl : List Nat) : Prop :=
  (∀ x ∈ fl, 16 ≤ x ∧ x + 16 ≤ 2 ^ 60) ∧
    (∀ x ∈ fl, ∀ y ∈ fl, x ≠ y → x + 32 ≤ y ∨ y + 32 ≤ x)

/-- Checks that no two physically adjacent blocks are both free. -/
def coalOK : List BlockD → Bool
  | a :: b :: r => (a.alloc || b.alloc) && coalOK (b :: r)
  | _ => true

/-- No two physically adjacent blocks are both free. -/
def Coalesced (bs : List BlockD) : Prop := coalOK bs = true

/-- Like `coalOK`, but adjacent pairs involving the distinguished block
`x` are exempt (used mid-operation, before `coalesce` runs). -/
def coalOKX (x : BlockD) : List BlockD → Bool
  | a :: b :: r => (a == x || b == x || a.alloc || b.alloc) && coalOKX x (b :: r)
  | _ => true

/-- Adjacent free pairs may only involve `x`. -/
def CoalescedX (bs : List BlockD) (x : BlockD) : Prop := coalOKX x bs = true

instance (m : Nat → Nat) (b : BlockD) : Decidable (BlockOK m b) :=
  inferInstanceAs (Decidable (rW m b.addr = encB b ∧
    rW m (b.addr + 8 + b.bsize) = encB b ∧ b.bsize % 16 = 0 ∧ 16 ≤ b.bsize))

instance (bs : List BlockD) : Decidable (Coalesced bs) :=
  inferInstanceAs (Decidable (coalOK bs = true))

instance (bs : List BlockD) (x : BlockD) : Decidable (CoalescedX bs x) :=
  inferInstanceAs (Decidable (coalOKX x bs = true))

/-- Well-formedness of an allocator state, with certificate `bs` (the
block list) and `fl` (the free list in list order). -/
structure Inv (s : St) (bs : List BlockD) (fl : List Nat) : Prop where
  tiles : tilesB 8 bs (s.hi - 8) = true
  pro : rW s.mem 0 = 1
  epi : rW s.mem (s.hi - 8) = 1
  blocks : ∀ b ∈ bs, BlockOK s.mem b
  coal : Coalesced bs
  chain : chainB s.mem s.first 0 fl = true
  perm : List.Perm fl (freeNodes bs)
  hi16 : s.hi % 16 = 0
  hiMax : s.hi ≤ s.maxH
  maxB : s.maxH ≤ 2 ^ 60
  nonempty : bs ≠ []

/-- Walk the heap from address `a`, decoding each header and checking
that the footer at the block's far end is inside the heap and holds the
identical word, until the epilogue at `hi - 8` is reached. -/
def walkOK (m : Nat → Nat) (hi : Nat) : Nat → Nat → Bool
  | 0, _ => false
  | fuel + 1, a =>
    if a = hi - 8 then true
    else
      let w := rW m a
      let sz := w - w % 2
      (a + 8 + sz + 8 ≤ hi) && (rW m (a + 8 + sz) == w) &&
        walkOK m hi fuel (a + sz + 16)

/-- Claim C1's property as a checkable function: every block found by
walking the heap has header and footer decoding to the identical
(size, allocated) pair, and the walk ends exactly at the epilogue. -/
def tagConsistent (s : St) : Bool := walkOK s.mem s.hi s.hi 8

/-- The amount `malloc` asks `expand_heap` for, given the aligned size. -/
def extendsizeOf (size : Nat) : Nat :=
  if 4096 < add64 size 16 then add64 size 16 else 4096

/-- Heap extension fails during `malloc s n`: no fit exists on the free
list and the `mem_sbrk` request that `malloc` would issue exceeds the
capacity. -/
def extFail (s : St) (n : Nat) : Prop :=
  first_fit s.mem (align n) (s.hi + 1) s.first = 0 ∧
    s.maxH < s.hi + align (extendsizeOf (align n))

/-- Size arguments up to this bound make all internal `size_t` arithmetic
of `malloc` overflow-free. -/
def limit64 : Nat := 2 ^ 64 - 32

/-- The header address of the block `malloc s n` places into (for a
non-zero request): the first-fit block if one exists, otherwise the block
produced by heap extension. -/
def chosenBlock (s : St) (n : Nat) : Nat :=
  let size := align n
  let b := first_fit s.mem size (s.hi + 1) s.first
  if b ≠ 0 then b else (expand_heap s (extendsizeOf size)).1

/-- A public operation of the allocator. -/
inductive Op where
  | alloc (n : Nat)
  | release (p : Nat)
  | resize (p n : Nat)
  | zalloc (c e : Nat)
deriving DecidableEq, Repr

/-- Run one public operation; `none` means the call never returns (the
`realloc` copy through a null pointer faults). -/
def applyOp (s : St) : Op → Option (Nat × St)
  | .alloc n => some (malloc s n)
  | .release p => some (0, free s p)
  | .resize p n => realloc s p n
  | .zalloc c e => some (calloc s c e)

/-- Protocol-respecting operations relative to block list `bs`: size
arguments small enough not to overflow, release only of null or a block
payload, resize only of null or a live (allocated) block payload. -/
def ValidOp (bs : List BlockD) : Op → Prop
  | .alloc n => n ≤ limit64
  | .release p => p = 0 ∨ ∃ b ∈ bs, p = b.addr + 8
  | .resize p n =>
      n ≤ limit64 ∧ (p = 0 ∨ ∃ b ∈ bs, b.alloc = true ∧ p = b.addr + 8)
  | .zalloc c e => c * e ≤ limit64

/-- One step of the traced semantics for claim C2: the state is paired
with the list of outstanding allocations (payload pointer, requested
bytes).  Steps that break the call protocol or exceed the overflow-free
size bound are rejected, as is the faulting `realloc` path. -/
def stepOp : St × List (Nat × Nat) → Op → Option (St × List (Nat × Nat))
  | (s, live), .alloc n =>
    if n ≤ limit64 then
      let r := malloc s n
      some (r.2, if r.1 = 0 then live else (r.1, n) :: live)
    else none
  | (s, live), .release p =>
    if p = 0 ∨ p ∈ live.map Prod.fst then
      some (free s p, live.filter (fun x => x.1 ≠ p))
    else none
  | (s, live), .resize p n =>
    if n ≤ limit64 ∧ (p = 0 ∨ p ∈ live.map Prod.fst) then
      match realloc s p n with
      | none => none
      | some (q, s2) =>
        some (s2,
          if q = 0 then
            (if n = 0 then live.filter (fun x => x.1 ≠ p) else live)
          else (q, n) :: live.filter (fun x => x.1 ≠ p))
    else none
  | (s, live), .zalloc c e =>
    if c * e ≤ limit64 then
      let r := calloc s c e
      some (r.2, if r.1 = 0 then live else (r.1, c * e) :: live)
    else none

/-- Run a list of operations under the traced semantics. -/
def runOps : St × List (Nat × Nat) → List Op → Option (St × List (Nat × Nat))
  | st, [] => some st
  | st, op :: ops =>
    match stepOp st op with
    | none => none
    | some st2 => runOps st2 ops

/-- Checks that the ranges in `live` are pairwise disjoint. -/
def rangesDisj : List (Nat × Nat) → Bool
  | [] => true
  | x :: r =>
    r.all (fun y => decide (x.1 + x.2 ≤ y.1) || decide (y.1 + y.2 ≤ x.1)) &&
      rangesDisj r

/-- Claim C2's property: the outstanding payload ranges are pairwise
disjoint and each lies inside the heap `[0, hi)`. -/
def RangesOK (live : List (Nat × Nat)) (hi : Nat) : Prop :=
  rangesDisj live = true ∧ ∀ x ∈ live, x.1 + x.2 ≤ hi

/-- Every outstanding allocation corresponds to an allocated block whose
payload covers the granted range, and distinct entries have distinct
payload pointers. -/
def LiveOK (bs : List BlockD) (live : List (Nat × Nat)) : Prop :=
  (∀ x ∈ live, ∃ b ∈ bs, b.alloc = true ∧ x.1 = b.addr + 8 ∧ x.2 ≤ b.bsize) ∧
    (live.map Prod.fst).Nodup

/-- The heap end position of a run of blocks starting at `a`. -/
def endOf (a : Nat) : List BlockD → Nat
  | [] => a
  | b :: r => endOf (a + b.bsize + 16) r

/-- State of the heap at the moment `coalesce x.addr` is entered: the
block `x` is free with its boundary tags written, it is not yet on the
free list (all other free blocks are), and only adjacencies involving `x`
may violate coalescing maximality. -/
structure PreCo (s : St) (bs : List BlockD) (fl : List Nat) (x : BlockD) : Prop where
  tiles : tilesB 8 bs (s.hi - 8) = true
  pro : rW s.mem 0 = 1
  epi : rW s.mem (s.hi - 8) = 1
  blocks : ∀ b ∈ bs, BlockOK s.mem b
  coal : CoalescedX bs x
  chain : chainB s.mem s.first 0 fl = true
  perm : List.Perm ((x.addr + 8) :: fl) (freeNodes bs)
  hi16 : s.hi % 16 = 0
  hiMax : s.hi ≤ s.maxH
  maxB : s.maxH ≤ 2 ^ 60
  nonempty : bs ≠ []
  xmem : x ∈ bs
  xfree : x.alloc = false

/-! ### Concrete states used by witnesses and counterexamples -/

/-- The heap right after `mm_init`, with a 2^40-byte capacity. -/
def heap0 : St := (mm_init (initState (2 ^ 40))).2

/-- Trace for the C2 counterexample, step 1: `allocate 16` (returns 16). -/
def c2s1 : Nat × St := malloc heap0 16

/-- Step 2: `allocate 16` (returns 48). -/
def c2s2 : Nat × St := malloc c2s1.2 16

/-- Step 3: `release` of the first pointer. -/
def c2s3 : St := free c2s2.2 c2s1.1

/-- Step 4: `allocate (2^64 - 1)`; `align` wraps the size to 0 and the
freed 16-byte block is handed out whole. -/
def c2s4 : Nat × St := malloc c2s3 (2 ^ 64 - 1)

/-- Trace for the C4 counterexample: one allocation... -/
def c4s1 : Nat × St := malloc heap0 16

/-- ...then its release, which merges the block with the free remainder;
the merged block spans the whole usable heap. -/
def c4s2 : St := free c4s1.2 c4s1.1

/-- Trace for the C9 counterexample: `zero_allocate (2^62 + 1) 4`; the
`size_t` product wraps to 4. -/
def c9s : Nat × St := calloc heap0 (2 ^ 62 + 1) 4

/-- Block certificate for `heap0`: one free 4064-byte block at header 8. -/
def bs0 : List BlockD := [⟨8, 4064, false⟩]

/-- Free-list certificate for `heap0`: the single node at 16. -/
def fl0 : List Nat := [16]

/-- Block certificate for the heap after `allocate 16` (state `c4s1.2`):
the allocated 16-byte block at 8 and the free 4032-byte remainder. -/
def c4bs : List BlockD := [⟨8, 16, true⟩, ⟨40, 4032, false⟩]

/-- Free-list certificate for `c4s1.2`: the remainder's node at 48. -/
def c4fl : List Nat := [48]

/-! ### Arithmetic lemmas -/

theorem add64_eq {a b : Nat} (h : a + b < 2 ^ 64) : add64 a b = a + b := by
  unfold add64; omega

theorem sub64_eq {a b : Nat} (hb : b ≤ a) (ha : a < 2 ^ 64) :
    sub64 a b = a - b := by
  unfold sub64; omega

theorem mul64_eq {a b : Nat} (h : a * b < 2 ^ 64) : mul64 a b = a * b := by
  unfold mul64; exact Nat.mod_eq_of_lt h

theorem align_eq {x : Nat} (h : x + 15 < 2 ^ 64) :
    align x = 16 * ((x + 15) / 16) := by
  unfold align; rw [Nat.mod_eq_of_lt h]

theorem align_ge {x : Nat} (h : x + 15 < 2 ^ 64) : x ≤ align x := by
  rw [align_eq h]; omega

theorem align_le {x : Nat} (h : x + 15 < 2 ^ 64) : align x ≤ x + 15 := by
  rw [align_eq h]; omega

theorem align_mod16 (x : Nat) : align x % 16 = 0 := by
  unfold align; exact Nat.mul_mod_right 16 _

theorem align_idem {x : Nat} (h16 : x % 16 = 0) (h : x + 15 < 2 ^ 64) :
    align x = x := by
  rw [align_eq h]; omega

theorem align_pos {x : Nat} (h1 : 1 ≤ x) (h : x + 15 < 2 ^ 64) :
    16 ≤ align x := by
  rw [align_eq h]; omega

theorem lsb_a_zero (v : Nat) : lsb_a v 0 = v := by simp [lsb_a]

theorem lsb_a_one {v : Nat} (h : v % 2 = 0) : lsb_a v 1 = v + 1 := by
  unfold lsb_a
  apply Nat.eq_of_testBit_eq
  intro i
  rw [Nat.testBit_lor]
  cases i with
  | zero => simp [Nat.testBit_zero]; omega
  | succ j =>
    have h1 : Nat.testBit 1 (j + 1) = false := by
      apply Nat.testBit_lt_two_pow
      have h2 : 2 ≤ 2 ^ (j + 1) := by
        calc 2 = 2 ^ 1 := rfl
        _ ≤ 2 ^ (j + 1) := Nat.pow_le_pow_right (by norm_num) (by omega)
      omega
    rw [h1, Bool.or_false, Nat.testBit_succ, Nat.testBit_succ]
    have h3 : (v + 1) / 2 = v / 2 := by omega
    rw [h3]

/-! ### Memory lemmas -/

theorem byteW_same (m : Nat → Nat) (a v : Nat) : byteW m a v a = v % 256 := by
  simp [byteW]

theorem byteW_ne (m : Nat → Nat) {a x : Nat} (v : Nat) (h : x ≠ a) :
    byteW m a v x = m x := by
  simp [byteW, h]

theorem writeN_out {m : Nat → Nat} {a v : Nat} {k x : Nat}
    (h : x < a ∨ a + k ≤ x) : writeN m a v k x = m x := by
  induction k with
  | zero => rfl
  | succ j ih =>
    show byteW (writeN m a v j) (a + j) (v / 256 ^ j) x = m x
    rw [byteW_ne _ _ (by omega)]
    exact ih (by omega)

theorem readN_congr {m m' : Nat → Nat} {a k : Nat}
    (h : ∀ i < k, m' (a + i) = m (a + i)) : readN m' a k = readN m a k := by
  induction k with
  | zero => rfl
  | succ j ih =>
    show readN m' a j + m' (a + j) % 256 * 256 ^ j =
      readN m a j + m (a + j) % 256 * 256 ^ j
    rw [ih (fun i hi => h i (by omega)), h j (by omega)]

theorem readN_lt (m : Nat → Nat) (a k : Nat) : readN m a k < 256 ^ k := by
  induction k with
  | zero => simp [readN]
  | succ j ih =>
    show readN m a j + m (a + j) % 256 * 256 ^ j < 256 ^ (j + 1)
    have h1 : m (a + j) % 256 ≤ 255 := by omega
    have h2 : m (a + j) % 256 * 256 ^ j ≤ 255 * 256 ^ j :=
      Nat.mul_le_mul_right _ h1
    have h3 : 256 ^ (j + 1) = 256 ^ j + 255 * 256 ^ j := by ring
    omega

theorem readN_writeN_same (m : Nat → Nat) (a v : Nat) (k : Nat) :
    readN (writeN m a v k) a k = v % 256 ^ k := by
  induction k with
  | zero => simp [readN, writeN, Nat.mod_one]
  | succ j ih =>
    show readN (writeN m a v (j + 1)) a j +
        (writeN m a v (j + 1)) (a + j) % 256 * 256 ^ j = v % 256 ^ (j + 1)
    have hout : readN (writeN m a v (j + 1)) a j = readN (writeN m a v j) a j := by
      apply readN_congr
      intro i hi
      show byteW (writeN m a v j) (a + j) (v / 256 ^ j) (a + i) = _
      rw [byteW_ne _ _ (by omega)]
    have hat : (writeN m a v (j + 1)) (a + j) = v / 256 ^ j % 256 := by
      show byteW (writeN m a v j) (a + j) (v / 256 ^ j) (a + j) = _
      rw [byteW_same]
    rw [hout, ih, hat]
    have hm : v % (256 ^ j * 256) = v % 256 ^ j + 256 ^ j * (v / 256 ^ j % 256) :=
      Nat.mod_mul
    have hp : (256 : Nat) ^ (j + 1) = 256 ^ j * 256 := by ring
    rw [hp, hm, Nat.mod_mod_of_dvd (v / 256 ^ j) (dvd_refl 256)]
    ring

theorem rW_wW_same (m : Nat → Nat) (a v : Nat) :
    rW (wW m a v) a = v % 2 ^ 64 := by
  have h : (256 : Nat) ^ 8 = 2 ^ 64 := by norm_num
  unfold rW wW
  rw [readN_writeN_same, h]

theorem rW_wW_lt {v : Nat} (m : Nat → Nat) (a : Nat) (h : v < 2 ^ 64) :
    rW (wW m a v) a = v := by
  rw [rW_wW_same, Nat.mod_eq_of_lt h]

theorem wW_out {m : Nat → Nat} {a v x : Nat} (h : x < a ∨ a + 8 ≤ x) :
    wW m a v x = m x := writeN_out h

theorem rW_wW_ne {m : Nat → Nat} {a b : Nat} (v : Nat)
    (h : b + 8 ≤ a ∨ a + 8 ≤ b) : rW (wW m a v) b = rW m b := by
  unfold rW
  apply readN_congr
  intro i hi
  exact wW_out (by omega)

theorem rW_lt (m : Nat → Nat) (a : Nat) : rW m a < 2 ^ 64 := by
  have h : (256 : Nat) ^ 8 = 2 ^ 64 := by norm_num
  have := readN_lt m a 8
  unfold rW
  omega

theorem rW_congr {m m' : Nat → Nat} {a : Nat}
    (h : ∀ i < 8, m' (a + i) = m (a + i)) : rW m' a = rW m a :=
  readN_congr h

/-! ### Decoding lemmas -/

theorem get_size_even (m : Nat → Nat) (a : Nat) : get_size m a % 2 = 0 := by
  unfold get_size; omega

theorem get_size_lt (m : Nat → Nat) (a : Nat) : get_size m a < 2 ^ 64 := by
  have := rW_lt m a
  unfold get_size
  omega

theorem get_size_le (m : Nat → Nat) (a : Nat) : get_size m a ≤ rW m a := by
  unfold get_size; omega

theorem get_size_wW_same {v : Nat} (m : Nat → Nat) (a : Nat) (h : v < 2 ^ 64) :
    get_size (wW m a v) a = v - v % 2 := by
  unfold get_size
  rw [rW_wW_lt m a h]

theorem get_size_wW_ne {m : Nat → Nat} {a b : Nat} (v : Nat)
    (h : b + 8 ≤ a ∨ a + 8 ≤ b) : get_size (wW m a v) b = get_size m b := by
  unfold get_size
  rw [rW_wW_ne v h]

theorem get_allocated_zero (m : Nat → Nat) : get_allocated m 0 = true := by
  simp [get_allocated]

theorem get_allocated_ne {a : Nat} (m : Nat → Nat) (h : a ≠ 0) :
    get_allocated m a = (rW m a % 2 == 1) := by
  simp [get_allocated, h]

theorem encB_lt {b : BlockD} (h : b.bsize < 2 ^ 60) : encB b < 2 ^ 64 := by
  unfold encB
  split <;> omega

theorem encB_size {b : BlockD} (h16 : b.bsize % 16 = 0) :
    encB b - encB b % 2 = b.bsize := by
  unfold encB
  split <;> omega

theorem encB_mod2 {b : BlockD} (h16 : b.bsize % 16 = 0) :
    encB b % 2 = if b.alloc then 1 else 0 := by
  unfold encB
  split <;> omega

theorem BlockOK.size_head {m : Nat → Nat} {b : BlockD} (h : BlockOK m b) :
    get_size m b.addr = b.bsize := by
  unfold get_size
  rw [h.1]
  exact encB_size h.2.2.1

theorem BlockOK.size_foot {m : Nat → Nat} {b : BlockD} (h : BlockOK m b) :
    get_size m (b.addr + 8 + b.bsize) = b.bsize := by
  unfold get_size
  rw [h.2.1]
  exact encB_size h.2.2.1

theorem BlockOK.alloc_head {m : Nat → Nat} {b : BlockD} (h : BlockOK m b)
    (hne : b.addr ≠ 0) : get_allocated m b.addr = b.alloc := by
  rw [get_allocated_ne m hne, h.1, encB_mod2 h.2.2.1]
  cases hb : b.alloc <;> simp [hb]

theorem BlockOK.alloc_foot {m : Nat → Nat} {b : BlockD} (h : BlockOK m b)
    (hne : b.addr + 8 + b.bsize ≠ 0) :
    get_allocated m (b.addr + 8 + b.bsize) = b.alloc := by
  rw [get_allocated_ne m hne, h.2.1, encB_mod2 h.2.2.1]
  cases hb : b.alloc <;> simp [hb]

/-! ### Tiling lemmas -/

theorem tilesB_nil {a e : Nat} : tilesB a [] e = true ↔ a = e := by
  simp [tilesB]

theorem tilesB_cons {a e : Nat} {b : BlockD} {r : List BlockD} :
    tilesB a (b :: r) e = true ↔
      b.addr = a ∧ tilesB (a + b.bsize + 16) r e = true := by
  simp [tilesB]

theorem tilesB_le {bs : List BlockD} : ∀ {a e : Nat},
    tilesB a bs e = true → a ≤ e := by
  induction bs with
  | nil => intro a e h; rw [tilesB_nil] at h; omega
  | cons b r ih =>
    intro a e h
    rw [tilesB_cons] at h
    have := ih h.2
    omega

theorem tilesB_mem {bs : List BlockD} : ∀ {a e : Nat},
    tilesB a bs e = true → ∀ b ∈ bs, a ≤ b.addr ∧ b.addr + b.bsize + 16 ≤ e := by
  induction bs with
  | nil => intro a e _ b hb; cases hb
  | cons c r ih =>
    intro a e h b hb
    rw [tilesB_cons] at h
    rcases List.mem_cons.1 hb with rfl | hb2
    · have := tilesB_le h.2
      omega
    · have := (ih h.2 b hb2)
      omega

theorem tilesB_pairwise {bs : List BlockD} : ∀ {a e : Nat},
    tilesB a bs e = true →
      List.Pairwise (fun x y => x.addr + x.bsize + 16 ≤ y.addr) bs := by
  induction bs with
  | nil => intro a e _; exact List.Pairwise.nil
  | cons b r ih =>
    intro a e h
    rw [tilesB_cons] at h
    refine List.Pairwise.cons ?_ (ih h.2)
    intro y hy
    have h2 := (tilesB_mem h.2 y hy).1
    omega

theorem tilesB_addr_mod {bs : List BlockD} : ∀ {a e : Nat},
    tilesB a bs e = true → (∀ b ∈ bs, b.bsize % 16 = 0) → a % 16 = 8 →
      ∀ b ∈ bs, b.addr % 16 = 8 := by
  induction bs with
  | nil => intro a e _ _ _ b hb; cases hb
  | cons c r ih =>
    intro a e h hsz ha b hb
    rw [tilesB_cons] at h
    rcases List.mem_cons.1 hb with rfl | hb2
    · omega
    · refine ih h.2 (fun x hx => hsz x (List.mem_cons_of_mem c hx)) ?_ b hb2
      have := hsz c (List.mem_cons_self c r)
      omega

theorem tilesB_last {bs : List BlockD} : ∀ {a e : Nat},
    tilesB a bs e = true → bs ≠ [] →
      ∃ bb ∈ bs, bb.addr + bb.bsize + 16 = e := by
  induction bs with
  | nil => intro a e _ hne; exact absurd rfl hne
  | cons c r ih =>
    intro a e h _
    rw [tilesB_cons] at h
    cases r with
    | nil =>
      obtain ⟨h1, h2⟩ := h
      rw [tilesB_nil] at h2
      exact ⟨c, List.mem_cons_self c [], by omega⟩
    | cons d r2 =>
      obtain ⟨bb, hm, he⟩ := ih h.2 (by simp)
      exact ⟨bb, List.mem_cons_of_mem c hm, he⟩

/-- From a pairwise relation, any two members are related one way or the
other, or equal. -/
theorem pairwise_cases {α : Type} {r : α → α → Prop} {l : List α}
    (h : List.Pairwise r l) {x y : α} (hx : x ∈ l) (hy : y ∈ l) :
    r x y ∨ r y x ∨ x = y := by
  induction l with
  | nil => cases hx
  | cons a t ih =>
    rcases List.mem_cons.1 hx with rfl | hx2
    · rcases List.mem_cons.1 hy with rfl | hy2
      · exact Or.inr (Or.inr rfl)
      · exact Or.inl ((List.pairwise_cons.1 h).1 y hy2)
    · rcases List.mem_cons.1 hy with rfl | hy2
      · exact Or.inr (Or.inl ((List.pairwise_cons.1 h).1 x hx2))
      · exact ih (List.pairwise_cons.1 h).2 hx2 hy2

/-! ### Free-list chain lemmas -/

theorem chainB_nil {m : Nat → Nat} {cur pa : Nat} :
    chainB m cur pa [] = true ↔ cur = 0 := by
  simp [chainB]

theorem chainB_cons {m : Nat → Nat} {cur pa x : Nat} {r : List Nat} :
    chainB m cur pa (x :: r) = true ↔
      cur = x ∧ rW m (x + 8) = pa ∧ chainB m (rW m x) x r = true := by
  simp [chainB, and_assoc]

theorem chainB_congr {m m' : Nat → Nat} {fl : List Nat}
    (h : ∀ x ∈ fl, rW m' x = rW m x ∧ rW m' (x + 8) = rW m (x + 8)) :
    ∀ {cur pa : Nat}, chainB m' cur pa fl = chainB m cur pa fl := by
  induction fl with
  | nil => intro cur pa; rfl
  | cons x r ih =>
    intro cur pa
    show ((cur == x) && (rW m' (x + 8) == pa) && chainB m' (rW m' x) x r) =
      ((cur == x) && (rW m (x + 8) == pa) && chainB m (rW m x) x r)
    rw [(h x (List.mem_cons_self x r)).1, (h x (List.mem_cons_self x r)).2,
      ih (fun y hy => h y (List.mem_cons_of_mem x hy))]

theorem chainB_wW {m : Nat → Nat} {a v : Nat} {fl : List Nat}
    (h : ∀ x ∈ fl, x + 16 ≤ a ∨ a + 8 ≤ x) {cur pa : Nat} :
    chainB (wW m a v) cur pa fl = chainB m cur pa fl := by
  apply chainB_congr
  intro x hx
  constructor
  · exact rW_wW_ne v (by rcases h x hx with h1 | h1 <;> omega)
  · exact rW_wW_ne v (by rcases h x hx with h1 | h1 <;> omega)

theorem freeNodes_mem {bs : List BlockD} {x : Nat} :
    x ∈ freeNodes bs ↔ ∃ b ∈ bs, b.alloc = false ∧ x = b.addr + 8 := by
  simp only [freeNodes, List.mem_map, List.mem_filter]
  constructor
  · rintro ⟨b, ⟨hb, hf⟩, rfl⟩
    exact ⟨b, hb, by simpa using hf, rfl⟩
  · rintro ⟨b, hb, hf, rfl⟩
    exact ⟨b, ⟨hb, by simp [hf]⟩, rfl⟩

/-! ### First-fit characterisation -/

theorem first_fit_zero (m : Nat → Nat) (size start : Nat) :
    first_fit m size 0 start = 0 := rfl

theorem first_fit_succ (m : Nat → Nat) (size fuel start : Nat) :
    first_fit m size (fuel + 1) start =
      if start = 0 then 0
      else if get_allocated m (sub64 start 8) = false ∧
          size ≤ get_size m (sub64 start 8) then sub64 start 8
      else first_fit m size fuel (rW m start) := rfl

theorem first_fit_mem {m : Nat → Nat} {size : Nat} {fl : List Nat} :
    ∀ {fuel cur pa : Nat}, chainB m cur pa fl = true →
      first_fit m size fuel cur = 0 ∨
        ∃ x ∈ fl, first_fit m size fuel cur = sub64 x 8 ∧
          get_allocated m (sub64 x 8) = false ∧
          size ≤ get_size m (sub64 x 8) := by
  induction fl with
  | nil =>
    intro fuel cur pa h
    rw [chainB_nil] at h
    subst h
    left
    cases fuel with
    | zero => rfl
    | succ fuel => rw [first_fit_succ]; simp
  | cons x r ih =>
    intro fuel cur pa h
    rw [chainB_cons] at h
    obtain ⟨heq, hpa, hr⟩ := h
    cases heq
    match fuel with
    | 0 => left; rfl
    | fuel + 1 =>
      rw [first_fit_succ]
      by_cases hx : x = 0
      · rw [if_pos hx]; exact Or.inl rfl
      · rw [if_neg hx]
        by_cases hfit : get_allocated m (sub64 x 8) = false ∧
            size ≤ get_size m (sub64 x 8)
        · rw [if_pos hfit]
          exact Or.inr ⟨x, List.mem_cons_self x r, rfl, hfit⟩
        · rw [if_neg hfit]
          rcases ih hr with h0 | ⟨y, hy, heq, hcond⟩
          · exact Or.inl h0
          · exact Or.inr ⟨y, List.mem_cons_of_mem x hy, heq, hcond⟩

/-! ### Residues modulo 16 through wrapping arithmetic -/

theorem add64_mod16 (a b : Nat) : add64 a b % 16 = (a + b) % 16 := by
  unfold add64; omega

theorem sub64_mod16 (a b : Nat) : (sub64 a b + b) % 16 = a % 16 := by
  unfold sub64; omega

theorem sub64_mod16_right {b : Nat} (a : Nat) (h : b % 16 = 0) :
    sub64 a b % 16 = a % 16 := by
  unfold sub64; omega

/-! ### Consequences of the invariant -/

theorem Inv.hi48 {s : St} {bs : List BlockD} {fl : List Nat}
    (h : Inv s bs fl) : 48 ≤ s.hi := by
  obtain ⟨b, hb⟩ := List.exists_mem_of_ne_nil bs h.nonempty
  have h1 := tilesB_mem h.tiles b hb
  have h2 := (h.blocks b hb).2.2.2
  omega

theorem Inv.mem_bounds {s : St} {bs : List BlockD} {fl : List Nat}
    (h : Inv s bs fl) {b : BlockD} (hb : b ∈ bs) :
    8 ≤ b.addr ∧ b.addr + b.bsize + 16 ≤ s.hi - 8 :=
  tilesB_mem h.tiles b hb

theorem Inv.addr_mod {s : St} {bs : List BlockD} {fl : List Nat}
    (h : Inv s bs fl) {b : BlockD} (hb : b ∈ bs) : b.addr % 16 = 8 :=
  tilesB_addr_mod h.tiles (fun c hc => (h.blocks c hc).2.2.1) (by norm_num) b hb

theorem Inv.hi_lt {s : St} {bs : List BlockD} {fl : List Nat}
    (h : Inv s bs fl) : s.hi ≤ 2 ^ 60 := le_trans h.hiMax h.maxB

theorem Inv.fl_mem {s : St} {bs : List BlockD} {fl : List Nat}
    (h : Inv s bs fl) {x : Nat} (hx : x ∈ fl) :
    ∃ b ∈ bs, b.alloc = false ∧ x = b.addr + 8 :=
  freeNodes_mem.1 (h.perm.subset hx)

theorem chainB_head {m : Nat → Nat} {cur pa : Nat} {fl : List Nat}
    (h : chainB m cur pa fl = true) : cur = 0 ∨ cur ∈ fl := by
  cases fl with
  | nil => exact Or.inl (chainB_nil.1 h)
  | cons x r => exact Or.inr ((chainB_cons.1 h).1 ▸ List.mem_cons_self x r)

/-- The last block of a well-formed heap ends right before the epilogue,
and its footer sits at `hi - 16`. -/
theorem Inv.last_block {s : St} {bs : List BlockD} {fl : List Nat}
    (h : Inv s bs fl) :
    ∃ bb ∈ bs, bb.addr + bb.bsize + 16 = s.hi - 8 :=
  tilesB_last h.tiles h.nonempty

/-! ### Unfolding lemmas for `malloc` and `expand_heap` -/

theorem malloc_zero (s : St) : malloc s 0 = (0, s) := rfl

theorem malloc_hit {s : St} {n b : Nat} (hn : n ≠ 0)
    (hb : first_fit s.mem (align n) (s.hi + 1) s.first = b) (h0 : b ≠ 0) :
    malloc s n = (add64 b 8, place s b (align n)) := by
  simp only [malloc, if_neg hn, hb, ne_eq, h0, not_false_eq_true, if_true]

theorem malloc_miss {s : St} {n : Nat} (hn : n ≠ 0)
    (hb : first_fit s.mem (align n) (s.hi + 1) s.first = 0) :
    malloc s n =
      (let r := expand_heap s (extendsizeOf (align n))
       if r.1 = 0 then (0, r.2) else (add64 r.1 8, place r.2 r.1 (align n))) := by
  simp only [malloc, if_neg hn, hb, ne_eq, not_true_eq_false, if_false, extendsizeOf]

theorem expand_heap_fail {s : St} {bytes0 : Nat}
    (h : s.maxH < s.hi + align bytes0) : expand_heap s bytes0 = (0, s) := by
  have hcond : ¬ (s.hi + align bytes0 ≤ s.maxH) := by omega
  unfold expand_heap
  rw [if_neg]
  unfold mem_sbrk
  rw [if_neg hcond]
  simp

theorem expand_heap_succ {s : St} {bytes0 : Nat} (hhi : s.hi ≠ 2 ^ 64 - 1)
    (h : s.hi + align bytes0 ≤ s.maxH) :
    expand_heap s bytes0 =
      if get_allocated (expMem s (align bytes0))
          (prev_blk (expMem s (align bytes0)) (sub64 s.hi 8)) = false then
        (prev_blk (expMem s (align bytes0)) (sub64 s.hi 8),
          coalesce (expSt s (align bytes0)) (sub64 s.hi 8))
      else (sub64 s.hi 8, add_node (expSt s (align bytes0)) (sub64 s.hi 8)) := by
  unfold expand_heap
  rw [if_pos]
  unfold mem_sbrk
  rw [if_pos h]
  simpa using hhi

/-! ### Alignment of returned pointers -/

/-- The footer value `expand_heap` reads to find its predecessor has a
size that is a multiple of 16. -/
theorem expMem_prev_size_mod {s : St} {bs : List BlockD} {fl : List Nat}
    (hInv : Inv s bs fl) {bytes : Nat} (h16 : bytes % 16 = 0)
    (hlt : bytes ≤ 2 ^ 60) :
    get_size (expMem s bytes) (sub64 (sub64 s.hi 8) 8) % 16 = 0 := by
  have hhi48 := hInv.hi48
  have hhilt := hInv.hi_lt
  have h1 : sub64 s.hi 8 = s.hi - 8 := sub64_eq (by omega) (by omega)
  have hr8 : sub64 (sub64 s.hi 8) 8 = s.hi - 16 := by
    rw [h1, sub64_eq (by omega) (by omega)]
    omega
  unfold expMem
  rw [hr8]
  by_cases hz : bytes = 0
  · subst hz
    have hA2 : sub64 (add64 s.hi 0) 16 = s.hi - 16 := by
      rw [add64_eq (by omega)]
      rw [sub64_eq (by omega) (by omega)]
      omega
    have hval : lsb_a (sub64 0 16) 0 = 2 ^ 64 - 16 := by
      rw [lsb_a_zero]
      unfold sub64
      omega
    rw [get_size_wW_ne _ (by omega), hA2, hval, get_size_wW_same _ _ (by omega)]
    omega
  · have h16le : 16 ≤ bytes := by omega
    have hA1 : sub64 (add64 s.hi bytes) 8 = s.hi + bytes - 8 := by
      rw [add64_eq (by omega)]; exact sub64_eq (by omega) (by omega)
    have hA2 : sub64 (add64 s.hi bytes) 16 = s.hi + bytes - 16 := by
      rw [add64_eq (by omega)]; exact sub64_eq (by omega) (by omega)
    rw [get_size_wW_ne _ (by omega), get_size_wW_ne _ (by omega),
      get_size_wW_ne _ (by omega)]
    obtain ⟨bb, hbb, hbe⟩ := hInv.last_block
    have hfoot : bb.addr + 8 + bb.bsize = s.hi - 16 := by omega
    have hsf := (hInv.blocks bb hbb).size_foot
    rw [hfoot] at hsf
    rw [hsf]
    exact (hInv.blocks bb hbb).2.2.1

theorem expand_result_mod {s : St} {bs : List BlockD} {fl : List Nat}
    (hInv : Inv s bs fl) (bytes0 : Nat) :
    (expand_heap s bytes0).1 = 0 ∨ (expand_heap s bytes0).1 % 16 = 8 := by
  have hhi48 := hInv.hi48
  have hhilt := hInv.hi_lt
  have hmaxB := hInv.maxB
  by_cases hc : s.hi + align bytes0 ≤ s.maxH
  · rw [expand_heap_succ (by omega) hc]
    right
    have hfmod := expMem_prev_size_mod hInv (align_mod16 bytes0)
      (by omega : align bytes0 ≤ 2 ^ 60)
    split
    · show prev_blk (expMem s (align bytes0)) (sub64 s.hi 8) % 16 = 8
      unfold prev_blk
      rw [sub64_mod16_right _ (by norm_num), sub64_mod16_right _ hfmod,
        sub64_eq (by omega : 8 ≤ s.hi) (by omega : s.hi < 2 ^ 64)]
      have := hInv.hi16
      omega
    · show sub64 s.hi 8 % 16 = 8
      rw [sub64_eq (by omega : 8 ≤ s.hi) (by omega : s.hi < 2 ^ 64)]
      have := hInv.hi16
      omega
  · rw [expand_heap_fail (by omega)]
    exact Or.inl rfl


theorem chainSegB_nil {m : Nat → Nat} {cur pa nxt : Nat} :
    chainSegB m cur pa [] nxt = true ↔ cur = nxt := by
  simp [chainSegB]

theorem chainSegB_cons {m : Nat → Nat} {cur pa x nxt : Nat} {r : List Nat} :
    chainSegB m cur pa (x :: r) nxt = true ↔
      cur = x ∧ rW m (x + 8) = pa ∧ chainSegB m (rW m x) x r nxt = true := by
  simp [chainSegB, and_assoc]

theorem chainB_eq_seg {m : Nat → Nat} {l : List Nat} :
    ∀ {cur pa : Nat}, chainB m cur pa l = chainSegB m cur pa l 0 := by
  induction l with
  | nil => intro cur pa; rfl
  | cons x r ih =>
    intro cur pa
    show ((cur == x) && (rW m (x + 8) == pa) && chainB m (rW m x) x r) = _
    rw [ih]
    rfl

theorem chainSegB_append {m : Nat → Nat} {l₁ l₂ : List Nat} :
    ∀ {cur pa nxt : Nat},
      chainSegB m cur pa (l₁ ++ l₂) nxt = true ↔
        ∃ mid, chainSegB m cur pa l₁ mid = true ∧
          chainSegB m mid (l₁.getLastD pa) l₂ nxt = true := by
  induction l₁ with
  | nil =>
    intro cur pa nxt
    constructor
    · intro h
      exact ⟨cur, chainSegB_nil.2 rfl, h⟩
    · rintro ⟨mid, h1, h2⟩
      rw [chainSegB_nil.1 h1]
      exact h2
  | cons x r ih =>
    intro cur pa nxt
    rw [List.cons_append, chainSegB_cons]
    constructor
    · rintro ⟨rfl, hpa, htail⟩
      obtain ⟨mid, hs1, hs2⟩ := ih.1 htail
      refine ⟨mid, chainSegB_cons.2 ⟨rfl, hpa, hs1⟩, ?_⟩
      rwa [List.getLastD_cons]
    · rintro ⟨mid, h1, h2⟩
      obtain ⟨rfl, hpa, hseg⟩ := chainSegB_cons.1 h1
      rw [List.getLastD_cons] at h2
      exact ⟨rfl, hpa, ih.2 ⟨mid, hseg, h2⟩⟩

theorem chainSegB_congr {m m' : Nat → Nat} {l : List Nat}
    (h : ∀ x ∈ l, rW m' x = rW m x ∧ rW m' (x + 8) = rW m (x + 8)) :
    ∀ {cur pa nxt : Nat}, chainSegB m' cur pa l nxt = chainSegB m cur pa l nxt := by
  induction l with
  | nil => intro cur pa nxt; rfl
  | cons x r ih =>
    intro cur pa nxt
    show ((cur == x) && (rW m' (x + 8) == pa) && chainSegB m' (rW m' x) x r nxt) = _
    rw [(h x (List.mem_cons_self x r)).1, (h x (List.mem_cons_self x r)).2,
      ih (fun y hy => h y (List.mem_cons_of_mem x hy))]
    rfl

theorem getLastD_concat_val {l : List Nat} {w d : Nat} :
    (l ++ [w]).getLastD d = w := by
  induction l generalizing d with
  | nil => rfl
  | cons x r ih =>
    rw [List.cons_append, List.getLastD_cons]
    exact ih

theorem getLastD_mem {l : List Nat} (h : l ≠ []) (d : Nat) :
    l.getLastD d ∈ l := by
  induction l generalizing d with
  | nil => exact absurd rfl h
  | cons x r ih =>
    rw [List.getLastD_cons]
    cases hr : r with
    | nil => subst hr; exact List.mem_cons_self x []
    | cons y t =>
      subst hr
      exact List.mem_cons_of_mem x (ih (by simp) x)


theorem removeGo_both {s : St} {p nx : Nat} (hp : p ≠ 0) (hnx : nx ≠ 0) :
    removeGo s p nx = { s with mem := wW (wW s.mem p nx) (add64 nx 8) p } := by
  unfold removeGo
  rw [if_pos ⟨hp, hnx⟩]

theorem removeGo_head {s : St} {nx : Nat} (hnx : nx ≠ 0) :
    removeGo s 0 nx = { s with mem := wW s.mem (add64 nx 8) 0, first := nx } := by
  unfold removeGo
  rw [if_neg (by simp), if_pos ⟨rfl, hnx⟩]

theorem removeGo_tail {s : St} {p : Nat} (hp : p ≠ 0) :
    removeGo s p 0 = { s with mem := wW s.mem p 0 } := by
  unfold removeGo
  rw [if_neg (by simp), if_neg (by simp [hp]), if_pos ⟨hp, rfl⟩]

theorem removeGo_sole (s : St) : removeGo s 0 0 = { s with first := 0 } := by
  unfold removeGo
  rw [if_neg (by simp), if_neg (by simp), if_neg (by simp)]

theorem remove_node_eq {s : St} {b : Nat} (hb : b + 16 < 2 ^ 64) :
    remove_node s b = removeGo s (rW s.mem (b + 8 + 8)) (rW s.mem (b + 8)) := by
  unfold remove_node
  rw [add64_eq (by omega : b + 8 < 2 ^ 64), add64_eq (by omega : b + 8 + 8 < 2 ^ 64)]

/-- Correctness of `remove_node` on a well-formed free list: the node at
`b + 8` is unlinked, memory is untouched outside the node storage of the
list members, the heap bounds are untouched, and removing the sole
element leaves the list root NULL. -/
theorem remove_node_dll {s : St} {fl : List Nat} (henv : NodeEnv fl)
    (hnd : fl.Nodup) (hchain : chainB s.mem s.first 0 fl = true)
    {b : Nat} (ha : b + 8 ∈ fl) :
    chainB (remove_node s b).mem (remove_node s b).first 0
        (fl.erase (b + 8)) = true ∧
      (∀ y : Nat, (∀ x ∈ fl, y < x ∨ x + 16 ≤ y) →
        (remove_node s b).mem y = s.mem y) ∧
      (remove_node s b).hi = s.hi ∧ (remove_node s b).maxH = s.maxH ∧
      (fl = [b + 8] → (remove_node s b).first = 0) := by
  obtain ⟨hbnd, hsp⟩ := henv
  have hab := hbnd _ ha
  have heq := remove_node_eq (s := s) (b := b) (by omega)
  obtain ⟨l1, l2, hfl⟩ := List.append_of_mem ha
  subst hfl
  obtain ⟨hnd1, hnd2, hdisj⟩ := List.nodup_append.1 hnd
  have hbn1 : b + 8 ∉ l1 := fun h => hdisj h (List.mem_cons_self _ _)
  have hbn2 : b + 8 ∉ l2 := (List.nodup_cons.1 hnd2).1
  have herase : (l1 ++ (b + 8) :: l2).erase (b + 8) = l1 ++ l2 := by
    rw [List.erase_append_right _ hbn1, List.erase_cons_head]
  rw [chainB_eq_seg, chainSegB_append] at hchain
  obtain ⟨mid, hseg1, hseg2⟩ := hchain
  rw [chainSegB_cons] at hseg2
  obtain ⟨hmid, hprev, htail⟩ := hseg2
  subst hmid
  rw [herase]
  by_cases hl1 : l1 = []
  · subst hl1
    have hfirst : s.first = b + 8 := chainSegB_nil.1 hseg1
    have hprev0 : rW s.mem (b + 8 + 8) = 0 := hprev
    cases l2 with
    | nil =>
      have hnx0 : rW s.mem (b + 8) = 0 := chainSegB_nil.1 htail
      rw [heq, hprev0, hnx0, removeGo_sole]
      refine ⟨by rw [List.nil_append]; rfl, fun y _ => rfl, rfl, rfl, fun _ => rfl⟩
    | cons y t =>
      rw [chainSegB_cons] at htail
      obtain ⟨hnxy, hyprev, hytail⟩ := htail
      have hy := hbnd y (by simp)
      have hynz : y ≠ 0 := by omega
      have hyb : y ≠ b + 8 := fun h => hbn2 (h ▸ List.mem_cons_self y t)
      have hsep_yb : y + 32 ≤ b + 8 ∨ b + 8 + 32 ≤ y :=
        hsp y (by simp) (b + 8) (by simp) hyb
      rw [heq, hprev0, hnxy, removeGo_head hynz]
      have hy8 : add64 y 8 = y + 8 := add64_eq (by omega)
      rw [hy8]
      refine ⟨?_, ?_, rfl, rfl, by simp⟩
      · rw [List.nil_append, chainB_eq_seg, chainSegB_cons]
        refine ⟨rfl, by rw [rW_wW_lt _ _ (by omega)], ?_⟩
        have hry : rW (wW s.mem (y + 8) 0) y = rW s.mem y :=
          rW_wW_ne _ (by omega)
        rw [hry]
        rw [chainSegB_congr]
        · exact hytail
        · intro z hz
          have hzy : z ≠ y := fun h =>
            (List.nodup_cons.1 (List.nodup_cons.1 hnd2).2).1 (h ▸ hz)
          have hzm : z ∈ (b + 8) :: y :: t := by simp [hz]
          have hs := hsp z (by simpa using Or.inr (Or.inr hz)) y (by simp) hzy
          exact ⟨rW_wW_ne _ (by omega), rW_wW_ne _ (by omega)⟩
      · intro yb hyb2
        have hcy := hyb2 y (by simp)
        exact wW_out (by omega)
  · obtain ⟨l1p, w, hl1e⟩ := (List.eq_nil_or_concat l1).resolve_left hl1
    rw [List.concat_eq_append] at hl1e
    subst hl1e
    have hwin : w ∈ (l1p ++ [w]) ++ (b + 8) :: l2 := by simp
    have hw := hbnd w hwin
    have hwnz : w ≠ 0 := by omega
    have hwb : w ≠ b + 8 := fun h => hbn1 (h ▸ (by simp : w ∈ l1p ++ [w]))
    have hsep_wb : w + 32 ≤ b + 8 ∨ b + 8 + 32 ≤ w :=
      hsp w hwin (b + 8) ha hwb
    have hwl1p : w ∉ l1p := by
      intro h
      exact (List.nodup_append.1 hnd1).2.2 h (List.mem_cons_self w [])
    have hprevw : rW s.mem (b + 8 + 8) = w := by
      rw [hprev, getLastD_concat_val]
    obtain ⟨mid2, hseg1a, hseg1b⟩ := chainSegB_append.1 hseg1
    rw [chainSegB_cons] at hseg1b
    obtain ⟨hmid2, hwprev, hwend⟩ := hseg1b
    subst mid2
    have hwlink : rW s.mem w = b + 8 := chainSegB_nil.1 hwend
    cases l2 with
    | nil =>
      have hnx0 : rW s.mem (b + 8) = 0 := chainSegB_nil.1 htail
      rw [heq, hprevw, hnx0, removeGo_tail hwnz]
      refine ⟨?_, ?_, rfl, rfl, ?_⟩
      · rw [List.append_nil, chainB_eq_seg, chainSegB_append]
        refine ⟨w, ?_, ?_⟩
        · rw [chainSegB_congr]
          · exact hseg1a
          · intro z hz
            have hzw : z ≠ w := fun h => hwl1p (h ▸ hz)
            have hzin : z ∈ (l1p ++ [w]) ++ (b + 8) :: [] := by simp [hz]
            have hs := hsp z hzin w hwin hzw
            exact ⟨rW_wW_ne _ (by omega), rW_wW_ne _ (by omega)⟩
        · rw [chainSegB_cons]
          refine ⟨rfl, ?_, ?_⟩
          · rw [rW_wW_ne _ (by omega)]
            exact hwprev
          · rw [chainSegB_nil, rW_wW_lt _ _ (by omega)]
      · intro yb hyb2
        have hcw := hyb2 w hwin
        exact wW_out (by omega)
      · intro h
        have hlen := congrArg List.length h
        simp [List.length_append] at hlen
    | cons y t =>
      rw [chainSegB_cons] at htail
      obtain ⟨hnxy, hyprev, hytail⟩ := htail
      have hyin : y ∈ (l1p ++ [w]) ++ (b + 8) :: y :: t := by simp
      have hy := hbnd y hyin
      have hynz : y ≠ 0 := by omega
      have hyw : y ≠ w := fun h =>
        hdisj (by simp : w ∈ l1p ++ [w]) (by simp [← h])
      have hsep_wy : w + 32 ≤ y ∨ y + 32 ≤ w := hsp w hwin y hyin (Ne.symm hyw)
      rw [heq, hprevw, hnxy, removeGo_both hwnz hynz]
      have hy8 : add64 y 8 = y + 8 := add64_eq (by omega)
      rw [hy8]
      refine ⟨?_, ?_, rfl, rfl, ?_⟩
      · rw [chainB_eq_seg, chainSegB_append]
        refine ⟨y, ?_, ?_⟩
        · rw [chainSegB_append]
          refine ⟨w, ?_, ?_⟩
          · rw [chainSegB_congr]
            · exact hseg1a
            · intro z hz
              have hzw : z ≠ w := fun h => hwl1p (h ▸ hz)
              have hzy : z ≠ y := fun h =>
                hdisj (List.mem_append_left _ hz) (by simp [← h])
              have hzin : z ∈ (l1p ++ [w]) ++ (b + 8) :: y :: t := by
                simp [hz]
              have hs1 := hsp z hzin w hwin hzw
              have hs2 := hsp z hzin y hyin hzy
              constructor
              · rw [rW_wW_ne _ (by omega), rW_wW_ne _ (by omega)]
              · rw [rW_wW_ne _ (by omega), rW_wW_ne _ (by omega)]
          · rw [chainSegB_cons]
            refine ⟨rfl, ?_, ?_⟩
            · rw [rW_wW_ne _ (by omega), rW_wW_ne _ (by omega)]
              exact hwprev
            · rw [chainSegB_nil, rW_wW_ne _ (by omega),
                rW_wW_lt _ _ (by omega)]
        · rw [getLastD_concat_val, chainSegB_cons]
          refine ⟨rfl, ?_, ?_⟩
          · rw [rW_wW_lt _ _ (by omega)]
          · rw [rW_wW_ne _ (by omega), rW_wW_ne _ (by omega)]
            rw [chainSegB_congr]
            · exact hytail
            · intro z hz
              have hzy : z ≠ y := fun h =>
                (List.nodup_cons.1 (List.nodup_cons.1 hnd2).2).1 (h ▸ hz)
              have hzw : z ≠ w := fun h =>
                hdisj (by simp [← h] : w ∈ l1p ++ [w]) (by simp [hz, ← h])
              have hzin : z ∈ (l1p ++ [w]) ++ (b + 8) :: y :: t := by
                simp [hz]
              have hs1 := hsp z hzin w hwin hzw
              have hs2 := hsp z hzin y hyin hzy
              constructor
              · rw [rW_wW_ne _ (by omega), rW_wW_ne _ (by omega)]
              · rw [rW_wW_ne _ (by omega), rW_wW_ne _ (by omega)]
      · intro yb hyb2
        have hcw := hyb2 w hwin
        have hcy := hyb2 y hyin
        exact (wW_out (by omega)).trans (wW_out (by omega))
      · intro h
        have hlen := congrArg List.length h
        simp [List.length_append] at hlen
        omega

/-- Correctness of `add_node`: the block's node is pushed at the front of
the free list, memory outside the existing nodes and the new node words is
untouched, and the list root points to the new node. -/
theorem add_node_dll {s : St} {fl : List Nat} (henv : NodeEnv fl)
    (hnd : fl.Nodup) (hchain : chainB s.mem s.first 0 fl = true)
    {b : Nat} (hb16 : 16 ≤ b + 8) (hb60 : b + 24 ≤ 2 ^ 60)
    (hsep : ∀ x ∈ fl, b + 8 + 32 ≤ x ∨ x + 32 ≤ b + 8) :
    chainB (add_node s b).mem (add_node s b).first 0 ((b + 8) :: fl) = true ∧
      (∀ y : Nat, (∀ x ∈ fl, y < x ∨ x + 16 ≤ y) → (y < b + 8 ∨ b + 24 ≤ y) →
        (add_node s b).mem y = s.mem y) ∧
      (add_node s b).hi = s.hi ∧ (add_node s b).maxH = s.maxH ∧
      (add_node s b).first = b + 8 := by
  obtain ⟨hbnd, hsp⟩ := henv
  have e1 : add64 b 8 = b + 8 := add64_eq (by omega)
  have e2 : add64 (add64 b 8) 8 = b + 16 := by
    rw [e1]; exact add64_eq (by omega)
  have e3 : b + 8 + 8 = b + 16 := by omega
  cases fl with
  | nil =>
    have hf0 : s.first = 0 := by simpa [chainB] using hchain
    unfold add_node
    rw [hf0, e2, e1, if_neg (by simp)]
    refine ⟨?_, ?_, rfl, rfl, rfl⟩
    · rw [chainB_eq_seg, chainSegB_cons]
      refine ⟨rfl, ?_, ?_⟩
      · rw [e3, rW_wW_lt _ _ (by omega)]
      · rw [chainSegB_nil, rW_wW_ne _ (by omega), rW_wW_lt _ _ (by omega)]
    · intro y _ hy2
      exact (wW_out (by omega)).trans (wW_out (by omega))
  | cons f rest =>
    rw [chainB_eq_seg, chainSegB_cons] at hchain
    obtain ⟨hf, hfprev, htail⟩ := hchain
    have hfm := hbnd f (List.mem_cons_self f rest)
    have hfnz : s.first ≠ 0 := by rw [hf]; omega
    have hsepf := hsep f (List.mem_cons_self f rest)
    unfold add_node
    rw [e2, e1, if_pos hfnz, hf]
    have e4 : add64 f 8 = f + 8 := add64_eq (by omega)
    rw [e4]
    refine ⟨?_, ?_, rfl, rfl, rfl⟩
    · rw [chainB_eq_seg, chainSegB_cons]
      refine ⟨rfl, ?_, ?_⟩
      · rw [e3, rW_wW_ne _ (by omega), rW_wW_lt _ _ (by omega)]
      · have hr : rW (wW (wW (wW s.mem (b + 8) f) (b + 16) 0) (f + 8) (b + 8))
            (b + 8) = f := by
          rw [rW_wW_ne _ (by omega), rW_wW_ne _ (by omega),
            rW_wW_lt _ _ (by omega)]
        rw [hr, chainSegB_cons]
        refine ⟨rfl, ?_, ?_⟩
        · rw [rW_wW_lt _ _ (by omega)]
        · have hrf : rW (wW (wW (wW s.mem (b + 8) f) (b + 16) 0) (f + 8)
              (b + 8)) f = rW s.mem f := by
            rw [rW_wW_ne _ (by omega), rW_wW_ne _ (by omega),
              rW_wW_ne _ (by omega)]
          rw [hrf, chainSegB_congr]
          · exact htail
          · intro z hz
            have hzf : z ≠ f := fun h => (List.nodup_cons.1 hnd).1 (h ▸ hz)
            have hzm := hbnd z (List.mem_cons_of_mem f hz)
            have hs1 := hsp z (List.mem_cons_of_mem f hz) f
              (List.mem_cons_self f rest) hzf
            have hs2 := hsep z (List.mem_cons_of_mem f hz)
            constructor
            · rw [rW_wW_ne _ (by omega), rW_wW_ne _ (by omega),
                rW_wW_ne _ (by omega)]
            · rw [rW_wW_ne _ (by omega), rW_wW_ne _ (by omega),
                rW_wW_ne _ (by omega)]
    · intro y hy1 hy2
      have hcf := hy1 f (List.mem_cons_self f rest)
      exact ((wW_out (by omega)).trans (wW_out (by omega))).trans
        (wW_out (by omega))


theorem endOf_nil (a : Nat) : endOf a [] = a := rfl

theorem endOf_cons (a : Nat) (b : BlockD) (r : List BlockD) :
    endOf a (b :: r) = endOf (a + b.bsize + 16) r := rfl

theorem tilesB_append {u v : List BlockD} : ∀ {a e : Nat},
    tilesB a (u ++ v) e = true ↔
      tilesB a u (endOf a u) = true ∧ tilesB (endOf a u) v e = true := by
  induction u with
  | nil =>
    intro a e
    simp [tilesB, endOf]
  | cons b r ih =>
    intro a e
    rw [List.cons_append, tilesB_cons, tilesB_cons, endOf_cons, ih]
    tauto

theorem tilesB_endOf {u : List BlockD} : ∀ {a e : Nat},
    tilesB a u e = true → endOf a u = e := by
  induction u with
  | nil =>
    intro a e h
    rw [tilesB_nil] at h
    simpa [endOf] using h
  | cons b r ih =>
    intro a e h
    rw [tilesB_cons] at h
    rw [endOf_cons]
    exact ih h.2

theorem endOf_ge {u : List BlockD} : ∀ {a : Nat}, a ≤ endOf a u := by
  induction u with
  | nil => intro a; exact le_refl a
  | cons b r ih =>
    intro a
    rw [endOf_cons]
    exact le_trans (by omega) ih

theorem freeNodes_append (u v : List BlockD) :
    freeNodes (u ++ v) = freeNodes u ++ freeNodes v := by
  simp [freeNodes]

theorem freeNodes_cons_alloc {b : BlockD} (h : b.alloc = true)
    (r : List BlockD) : freeNodes (b :: r) = freeNodes r := by
  simp [freeNodes, List.filter_cons, h]

theorem freeNodes_cons_free {b : BlockD} (h : b.alloc = false)
    (r : List BlockD) :
    freeNodes (b :: r) = (b.addr + 8) :: freeNodes r := by
  simp [freeNodes, List.filter_cons, h]

theorem tilesB_strict {bs : List BlockD} {a e : Nat}
    (h : tilesB a bs e = true) :
    List.Pairwise (fun x y : BlockD => x.addr < y.addr) bs := by
  have hp := tilesB_pairwise h
  exact hp.imp (fun hxy => by omega)

theorem freeNodes_nodup {bs : List BlockD} {a e : Nat}
    (h : tilesB a bs e = true) : (freeNodes bs).Nodup := by
  have hs : List.Pairwise (fun x y : BlockD => x.addr < y.addr)
      (bs.filter fun b => !b.alloc) := (tilesB_strict h).filter _
  unfold freeNodes
  apply List.Nodup.map_on
  · intro x hx y hy hxy
    rcases pairwise_cases hs hx hy with h1 | h1 | h1
    · exact absurd hxy (by omega)
    · exact absurd hxy (by omega)
    · exact h1
  · exact hs.imp (fun hlt he => by cases he; omega)

theorem coalOK_tail {b : BlockD} {r : List BlockD}
    (h : coalOK (b :: r) = true) : coalOK r = true := by
  cases r with
  | nil => rfl
  | cons c t =>
    have : coalOK (b :: c :: t) =
        ((b.alloc || c.alloc) && coalOK (c :: t)) := rfl
    rw [this, Bool.and_eq_true] at h
    exact h.2

theorem coalOK_pair {a b : BlockD} {r : List BlockD}
    (h : coalOK (a :: b :: r) = true) : a.alloc = true ∨ b.alloc = true := by
  have : coalOK (a :: b :: r) = ((a.alloc || b.alloc) && coalOK (b :: r)) := rfl
  rw [this, Bool.and_eq_true, Bool.or_eq_true] at h
  exact h.1

theorem coalOK_cons_of {b : BlockD} {r : List BlockD}
    (hr : coalOK r = true)
    (hb : ∀ c, r.head? = some c → b.alloc = true ∨ c.alloc = true) :
    coalOK (b :: r) = true := by
  cases r with
  | nil => rfl
  | cons c t =>
    have he : coalOK (b :: c :: t) =
        ((b.alloc || c.alloc) && coalOK (c :: t)) := rfl
    rw [he, Bool.and_eq_true, Bool.or_eq_true]
    exact ⟨hb c rfl, hr⟩

theorem coalOK_append_right : ∀ {u v : List BlockD},
    coalOK (u ++ v) = true → coalOK v = true := by
  intro u
  induction u with
  | nil => intro v h; exact h
  | cons b r ih =>
    intro v h
    exact ih (coalOK_tail h)

theorem coalOK_boundary : ∀ {u : List BlockD} {b : BlockD} {v : List BlockD},
    coalOK (u ++ b :: v) = true → ∀ a, u.getLast? = some a →
      a.alloc = true ∨ b.alloc = true := by
  intro u
  induction u with
  | nil => intro b v _ a ha; cases ha
  | cons c r ih =>
    intro b v h a ha
    cases r with
    | nil =>
      cases ha
      exact coalOK_pair h
    | cons d t =>
      rw [List.getLast?_cons_cons] at ha
      exact ih (coalOK_tail h) a ha

theorem coalOK_append_left : ∀ {u v : List BlockD},
    coalOK (u ++ v) = true → coalOK u = true := by
  intro u
  induction u with
  | nil => intro v _; rfl
  | cons b r ih =>
    intro v h
    apply coalOK_cons_of (ih (coalOK_tail h))
    intro c hc
    cases r with
    | nil => cases hc
    | cons d t =>
      cases hc
      exact coalOK_pair h

theorem coalOK_mid : ∀ {u : List BlockD} {y : BlockD} {v : List BlockD},
    coalOK u = true → coalOK v = true →
    (∀ a, u.getLast? = some a → a.alloc = true ∨ y.alloc = true) →
    (∀ b, v.head? = some b → y.alloc = true ∨ b.alloc = true) →
    coalOK (u ++ y :: v) = true := by
  intro u
  induction u with
  | nil =>
    intro y v _ hv _ hb
    exact coalOK_cons_of hv hb
  | cons c r ih =>
    intro y v h hv ha hb
    rw [List.cons_append]
    have har : ∀ a, r.getLast? = some a → a.alloc = true ∨ y.alloc = true := by
      intro a hra
      cases r with
      | nil => cases hra
      | cons e t =>
        apply ha
        rw [List.getLast?_cons_cons]
        exact hra
    apply coalOK_cons_of (ih (coalOK_tail h) hv har hb)
    intro d hd
    cases r with
    | nil =>
      simp only [List.nil_append, List.head?_cons, Option.some.injEq] at hd
      rw [← hd]
      exact ha c rfl
    | cons e t =>
      simp only [List.cons_append, List.head?_cons, Option.some.injEq] at hd
      rw [← hd]
      exact coalOK_pair h

theorem coalOKX_tail {x b : BlockD} {r : List BlockD}
    (h : coalOKX x (b :: r) = true) : coalOKX x r = true := by
  cases r with
  | nil => rfl
  | cons c t =>
    have : coalOKX x (b :: c :: t) =
        ((b == x || c == x || b.alloc || c.alloc) && coalOKX x (c :: t)) := rfl
    rw [this, Bool.and_eq_true] at h
    exact h.2

theorem coalOKX_pair {x a b : BlockD} {r : List BlockD}
    (h : coalOKX x (a :: b :: r) = true) :
    a = x ∨ b = x ∨ a.alloc = true ∨ b.alloc = true := by
  have : coalOKX x (a :: b :: r) =
      ((a == x || b == x || a.alloc || b.alloc) && coalOKX x (b :: r)) := rfl
  rw [this, Bool.and_eq_true] at h
  have h1 := h.1
  simp only [Bool.or_eq_true, beq_iff_eq] at h1
  tauto

theorem coalOKX_append_right : ∀ {u v : List BlockD} {x : BlockD},
    coalOKX x (u ++ v) = true → coalOKX x v = true := by
  intro u
  induction u with
  | nil => intro v x h; exact h
  | cons b r ih =>
    intro v x h
    exact ih (coalOKX_tail h)

theorem coalOK_of_coalOKX : ∀ {l : List BlockD} {x : BlockD},
    coalOKX x l = true → (∀ c ∈ l, c ≠ x) → coalOK l = true := by
  intro l
  induction l with
  | nil => intro x _ _; rfl
  | cons b r ih =>
    intro x h hne
    apply coalOK_cons_of (ih (coalOKX_tail h) fun c hc =>
      hne c (List.mem_cons_of_mem b hc))
    intro c hc
    cases r with
    | nil => cases hc
    | cons d t =>
      simp only [List.head?_cons, Option.some.injEq] at hc
      rw [← hc]
      rcases coalOKX_pair h with h1 | h1 | h1 | h1
      · exact absurd h1 (hne b (List.mem_cons_self b _))
      · exact absurd h1
          (hne d (List.mem_cons_of_mem b (List.mem_cons_self d t)))
      · exact Or.inl h1
      · exact Or.inr h1

theorem coalOKX_boundary : ∀ {u : List BlockD} {b x : BlockD} {v : List BlockD},
    coalOKX x (u ++ b :: v) = true → ∀ a, u.getLast? = some a →
      a = x ∨ b = x ∨ a.alloc = true ∨ b.alloc = true := by
  intro u
  induction u with
  | nil => intro b x v _ a ha; cases ha
  | cons c r ih =>
    intro b x v h a ha
    cases r with
    | nil =>
      cases ha
      exact coalOKX_pair h
    | cons d t =>
      rw [List.getLast?_cons_cons] at ha
      exact ih (coalOKX_tail h) a ha


theorem NodeEnv_of {bs : List BlockD} {fl : List Nat} {e : Nat}
    (htiles : tilesB 8 bs e = true) (he : e + 8 ≤ 2 ^ 60)
    (hsz : ∀ b ∈ bs, 16 ≤ b.bsize)
    (hnodes : ∀ z ∈ fl, ∃ f ∈ bs, f.alloc = false ∧ z = f.addr + 8) :
    NodeEnv fl := by
  constructor
  · intro z hz
    obtain ⟨f, hf, _, rfl⟩ := hnodes z hz
    have h1 := tilesB_mem htiles f hf
    have h2 := hsz f hf
    omega
  · intro z1 hz1 z2 hz2 hne
    obtain ⟨f1, hf1, _, rfl⟩ := hnodes z1 hz1
    obtain ⟨f2, hf2, _, rfl⟩ := hnodes z2 hz2
    have hp := tilesB_pairwise htiles
    have hs1 := hsz f1 hf1
    have hs2 := hsz f2 hf2
    rcases pairwise_cases hp hf1 hf2 with hc | hc | hc
    · omega
    · omega
    · exact absurd (by rw [hc]) hne

theorem NodeEnv_subset {fl fl' : List Nat} (h : NodeEnv fl)
    (hsub : ∀ x ∈ fl', x ∈ fl) : NodeEnv fl' :=
  ⟨fun x hx => h.1 x (hsub x hx),
    fun x hx y hy => h.2 x (hsub x hx) y (hsub y hy)⟩

theorem BlockOK_congr {m m' : Nat → Nat} {b : BlockD} (hok : BlockOK m b)
    (h1 : ∀ i < 8, m' (b.addr + i) = m (b.addr + i))
    (h2 : ∀ i < 8, m' (b.addr + 8 + b.bsize + i) = m (b.addr + 8 + b.bsize + i)) :
    BlockOK m' b :=
  ⟨(rW_congr h1).trans hok.1, (rW_congr h2).trans hok.2.1, hok.2.2⟩

theorem BlockOK_wW {m : Nat → Nat} {c : BlockD} (hok : BlockOK m c) (a v : Nat)
    (h1 : a + 8 ≤ c.addr ∨ c.addr + 8 ≤ a)
    (h2 : a + 8 ≤ c.addr + 8 + c.bsize ∨ c.addr + 16 + c.bsize ≤ a) :
    BlockOK (wW m a v) c :=
  ⟨by rw [rW_wW_ne v (by omega)]; exact hok.1,
    by rw [rW_wW_ne v (by omega)]; exact hok.2.1, hok.2.2⟩

theorem chainB_wW_out {m : Nat → Nat} {fl : List Nat} {a : Nat} (v : Nat)
    (hsep : ∀ z ∈ fl, z + 16 ≤ a ∨ a + 8 ≤ z) {cur pa : Nat} :
    chainB (wW m a v) cur pa fl = chainB m cur pa fl :=
  chainB_congr (fun z hz =>
    ⟨rW_wW_ne v (by have := hsep z hz; omega),
      rW_wW_ne v (by have := hsep z hz; omega)⟩)

theorem tags_frame {m m' : Nat → Nat} {bs : List BlockD} {fl : List Nat}
    {e : Nat} (htiles : tilesB 8 bs e = true)
    (hsz : ∀ b ∈ bs, 16 ≤ b.bsize)
    (hnodes : ∀ z ∈ fl, ∃ f ∈ bs, f.alloc = false ∧ z = f.addr + 8)
    (hfr : ∀ y, (∀ x ∈ fl, y < x ∨ x + 16 ≤ y) → m' y = m y) :
    (∀ b ∈ bs, BlockOK m b → BlockOK m' b) ∧
      (∀ y, y < 8 → m' y = m y) ∧ (∀ y, e ≤ y → m' y = m y) := by
  have hout : ∀ y, (∀ f ∈ bs, f.alloc = false →
      y < f.addr + 8 ∨ f.addr + 24 ≤ y) → m' y = m y := by
    intro y hy
    apply hfr
    intro z hz
    obtain ⟨f, hf, hfa, rfl⟩ := hnodes z hz
    have := hy f hf hfa
    omega
  refine ⟨?_, ?_, ?_⟩
  · intro b hb hok
    have hbb := tilesB_mem htiles b hb
    have hbs := hsz b hb
    have hp := tilesB_pairwise htiles
    have key : ∀ y, (b.addr ≤ y ∧ y < b.addr + 8) ∨
        (b.addr + 8 + b.bsize ≤ y ∧ y < b.addr + 16 + b.bsize) →
        m' y = m y := by
      intro y hyr
      apply hout
      intro f hf hfa
      rcases pairwise_cases hp hf hb with hc | hc | hc
      · have := hsz f hf
        omega
      · have := hsz f hf
        omega
      · rw [hc]
        omega
    exact BlockOK_congr hok
      (fun i hi => key _ (Or.inl (by omega)))
      (fun i hi => key _ (Or.inr (by omega)))
  · intro y hy
    apply hout
    intro f hf _
    have := tilesB_mem htiles f hf
    omega
  · intro y hy
    apply hout
    intro f hf _
    have h1 := tilesB_mem htiles f hf
    have h2 := hsz f hf
    omega

theorem rW_frame {m m' : Nat → Nat} {a : Nat}
    (h : ∀ y, a ≤ y → y < a + 8 → m' y = m y) : rW m' a = rW m a :=
  rW_congr (fun i hi => h (a + i) (by omega) (by omega))

theorem tilesB_len {bs : List BlockD} : ∀ {a e : Nat},
    tilesB a bs e = true → (∀ b ∈ bs, 16 ≤ b.bsize) →
      a + 32 * bs.length ≤ e := by
  induction bs with
  | nil =>
    intro a e h _
    rw [tilesB_nil] at h
    simp [h]
  | cons b r ih =>
    intro a e h hsz
    rw [tilesB_cons] at h
    have h1 := ih h.2 (fun c hc => hsz c (List.mem_cons_of_mem b hc))
    have h2 := hsz b (List.mem_cons_self b r)
    simp only [List.length_cons]
    omega

theorem walkOK_tiles {m : Nat → Nat} {hi : Nat} : ∀ {bs : List BlockD}
    {fuel a : Nat}, tilesB a bs (hi - 8) = true →
    (∀ b ∈ bs, BlockOK m b) → 16 ≤ hi → bs.length + 1 ≤ fuel →
    walkOK m hi fuel a = true := by
  intro bs
  induction bs with
  | nil =>
    intro fuel a h _ hhi hf
    rw [tilesB_nil] at h
    cases fuel with
    | zero => omega
    | succ k =>
      unfold walkOK
      rw [if_pos h]
  | cons b r ih =>
    intro fuel a h hok hhi hf
    rw [tilesB_cons] at h
    obtain ⟨ha, htail⟩ := h
    have hbok := hok b (List.mem_cons_self b r)
    have hsz := hbok.2.2.2
    have hext : a + b.bsize + 16 ≤ hi - 8 := by
      have := tilesB_le htail
      omega
    cases fuel with
    | zero => simp at hf
    | succ k =>
      unfold walkOK
      rw [if_neg (by omega)]
      have hw : rW m a = encB b := by rw [← ha]; exact hbok.1
      have hsz2 : rW m a - rW m a % 2 = b.bsize := by
        rw [hw]
        exact encB_size hbok.2.2.1
      rw [Bool.and_eq_true, Bool.and_eq_true]
      refine ⟨⟨?_, ?_⟩, ?_⟩
      · rw [hsz2]
        simp only [decide_eq_true_eq]
        omega
      · rw [hsz2, beq_iff_eq, ← ha]
        rw [hbok.2.1, hbok.1]
      · rw [hsz2]
        apply ih htail
          (fun c hc => hok c (List.mem_cons_of_mem b hc)) hhi
        simp only [List.length_cons] at hf
        omega


theorem Inv_nodeEnv {s : St} {bs : List BlockD} {fl : List Nat}
    (h : Inv s bs fl) : NodeEnv fl :=
  NodeEnv_of h.tiles (by have := h.hi48; have := h.hi_lt; omega)
    (fun b hb => (h.blocks b hb).2.2.2) (fun z hz => h.fl_mem hz)

theorem Inv_nodup {s : St} {bs : List BlockD} {fl : List Nat}
    (h : Inv s bs fl) : fl.Nodup :=
  h.perm.nodup_iff.2 (freeNodes_nodup h.tiles)

theorem PreCo_hi48 {s : St} {bs : List BlockD} {fl : List Nat} {x : BlockD}
    (h : PreCo s bs fl x) : 48 ≤ s.hi := by
  obtain ⟨b, hb⟩ := List.exists_mem_of_ne_nil bs h.nonempty
  have h1 := tilesB_mem h.tiles b hb
  have h2 := (h.blocks b hb).2.2.2
  omega

theorem PreCo_nodeEnv {s : St} {bs : List BlockD} {fl : List Nat} {x : BlockD}
    (h : PreCo s bs fl x) : NodeEnv ((x.addr + 8) :: fl) :=
  NodeEnv_of h.tiles
    (by have := PreCo_hi48 h; have := le_trans h.hiMax h.maxB; omega)
    (fun b hb => (h.blocks b hb).2.2.2)
    (fun z hz => freeNodes_mem.1 (h.perm.subset hz))

theorem PreCo_nodup {s : St} {bs : List BlockD} {fl : List Nat} {x : BlockD}
    (h : PreCo s bs fl x) : ((x.addr + 8) :: fl).Nodup :=
  h.perm.nodup_iff.2 (freeNodes_nodup h.tiles)

theorem Inv_tagConsistent {s : St} {bs : List BlockD} {fl : List Nat}
    (h : Inv s bs fl) : tagConsistent s = true := by
  unfold tagConsistent
  apply walkOK_tiles h.tiles h.blocks (by have := h.hi48; omega)
  have hlen := tilesB_len h.tiles (fun b hb => (h.blocks b hb).2.2.2)
  have := h.hi48
  omega

/-- Push step shared by `coalesce`, `split` and `expand_heap`: in state
`s1` every block of `u ++ y :: v2` already has correct tags, `y` is free
and not yet on the free list, and `add_node` pushes its node. -/
theorem pushFinish (s1 : St) (u v2 : List BlockD) (fl1 : List Nat)
    (y : BlockD) (htiles : tilesB 8 (u ++ y :: v2) (s1.hi - 8) = true)
    (hya : y.alloc = false)
    (hblocks : ∀ c ∈ u ++ y :: v2, BlockOK s1.mem c)
    (hpro : rW s1.mem 0 = 1) (hepi : rW s1.mem (s1.hi - 8) = 1)
    (hchain : chainB s1.mem s1.first 0 fl1 = true)
    (hperm : List.Perm fl1 (freeNodes (u ++ v2)))
    (hcoal : coalOK (u ++ y :: v2) = true)
    (hhi16 : s1.hi % 16 = 0) (hhiMax : s1.hi ≤ s1.maxH)
    (hmaxB : s1.maxH ≤ 2 ^ 60) :
    Inv (add_node s1 y.addr) (u ++ y :: v2) ((y.addr + 8) :: fl1) ∧
      (add_node s1 y.addr).hi = s1.hi ∧
      (add_node s1 y.addr).maxH = s1.maxH ∧
      (add_node s1 y.addr).first = y.addr + 8 := by
  have hymem : y ∈ u ++ y :: v2 := by simp
  have hyb := tilesB_mem htiles y hymem
  have hys : 16 ≤ y.bsize := (hblocks y hymem).2.2.2
  have hhi60 : s1.hi ≤ 2 ^ 60 := le_trans hhiMax hmaxB
  have hszAll : ∀ c ∈ u ++ y :: v2, 16 ≤ c.bsize :=
    fun c hc => (hblocks c hc).2.2.2
  have hnodes1 : ∀ z ∈ fl1, ∃ f ∈ u ++ v2, f.alloc = false ∧ z = f.addr + 8 :=
    fun z hz => freeNodes_mem.1 (hperm.subset hz)
  have hmemlift : ∀ f ∈ u ++ v2, f ∈ u ++ y :: v2 := by
    intro f hf
    rcases List.mem_append.1 hf with h1 | h1
    · exact List.mem_append_left _ h1
    · exact List.mem_append_right _ (List.mem_cons_of_mem y h1)
  have hnodes' : ∀ z ∈ fl1, ∃ f ∈ u ++ y :: v2, f.alloc = false ∧
      z = f.addr + 8 := by
    intro z hz
    obtain ⟨f, hf, hfa, rfl⟩ := hnodes1 z hz
    exact ⟨f, hmemlift f hf, hfa, rfl⟩
  have hp := tilesB_pairwise htiles
  have hextent : ∀ f ∈ u ++ v2, f.addr + f.bsize + 16 ≤ y.addr ∨
      y.addr + y.bsize + 16 ≤ f.addr := by
    intro f hf
    rcases pairwise_cases hp (hmemlift f hf) hymem with hc | hc | hc
    · exact Or.inl hc
    · exact Or.inr hc
    · subst hc
      exfalso
      rcases List.mem_append.1 hf with h1 | h1
      · have hsl : List.Pairwise (fun a b : BlockD => a.addr < b.addr)
            (u ++ f :: v2) := tilesB_strict htiles
        have : f.addr < f.addr :=
          (List.pairwise_append.1 hsl).2.2 f h1 f (List.mem_cons_self f v2)
        omega
      · have hsl : List.Pairwise (fun a b : BlockD => a.addr < b.addr)
            (f :: v2) :=
          (List.pairwise_append.1 (tilesB_strict htiles)).2.1
        have : f.addr < f.addr := (List.pairwise_cons.1 hsl).1 f h1
        omega
  have hnsep : ∀ z ∈ fl1, y.addr + 8 + 32 ≤ z ∨ z + 32 ≤ y.addr + 8 := by
    intro z hz
    obtain ⟨f, hf, hfa, rfl⟩ := hnodes1 z hz
    have hfs : 16 ≤ f.bsize := (hblocks f (hmemlift f hf)).2.2.2
    rcases hextent f hf with hc | hc
    · right; omega
    · left; omega
  have henv1 : NodeEnv fl1 := NodeEnv_of htiles (by omega) hszAll hnodes'
  have hnd1 : fl1.Nodup := by
    have hnd := freeNodes_nodup htiles
    rw [freeNodes_append, freeNodes_cons_free hya] at hnd
    have hsl : List.Sublist (freeNodes u ++ freeNodes v2)
        (freeNodes u ++ (y.addr + 8) :: freeNodes v2) :=
      List.Sublist.append_left (List.sublist_cons_self _ _) _
    rw [← freeNodes_append] at hsl
    exact hperm.nodup_iff.2 (hsl.nodup hnd)
  have hadd := add_node_dll (s := s1) henv1 hnd1 hchain
    (b := y.addr) (by omega) (by omega) (by
      intro z hz
      rcases hnsep z hz with h1 | h1
      · left; omega
      · right; omega)
  obtain ⟨hchain3, hfr3, hhi3, hmax3, hfst3⟩ := hadd
  have hfr3' : ∀ yb : Nat,
      (∀ x2 ∈ (y.addr + 8) :: fl1, yb < x2 ∨ x2 + 16 ≤ yb) →
      (add_node s1 y.addr).mem yb = s1.mem yb := by
    intro yb hyb2
    apply hfr3
    · intro x2 hx2
      exact hyb2 x2 (List.mem_cons_of_mem _ hx2)
    · have := hyb2 (y.addr + 8) (List.mem_cons_self _ _)
      omega
  have hnodes3 : ∀ z ∈ (y.addr + 8) :: fl1, ∃ f ∈ u ++ y :: v2,
      f.alloc = false ∧ z = f.addr + 8 := by
    intro z hz
    rcases List.mem_cons.1 hz with rfl | hz2
    · exact ⟨y, hymem, hya, rfl⟩
    · exact hnodes' z hz2
  have htag := tags_frame htiles hszAll hnodes3 hfr3'
  refine ⟨⟨?_, ?_, ?_, ?_, hcoal, ?_, ?_, ?_, ?_, hmaxB, ?_⟩, hhi3, hmax3,
    hfst3⟩
  · rw [hhi3]
    exact htiles
  · rw [rW_frame (fun yb h1 h2 => htag.2.1 yb (by omega))]
    exact hpro
  · rw [hhi3, rW_frame (fun yb h1 h2 => htag.2.2 yb (by omega))]
    exact hepi
  · intro c hc
    exact htag.1 c hc (hblocks c hc)
  · rw [hfst3] at hchain3 ⊢
    exact hchain3
  · refine List.Perm.trans (hperm.cons (y.addr + 8)) ?_
    rw [freeNodes_append, freeNodes_append, freeNodes_cons_free hya]
    exact List.perm_middle.symm
  · rw [hhi3]
    exact hhi16
  · rw [hhi3, hmax3]
    exact hhiMax
  · simp

/-- Finishing step shared by all merging paths of `coalesce`: the state
`s1` (after the free-list removals) holds correct tags for every block of
`u ++ v2`, the free list `fl1` matches their free members, and the merged
block `y` gets its tags written and is pushed onto the list. -/
theorem mergeFinish (s1 : St) (u v2 : List BlockD) (fl1 : List Nat)
    (y : BlockD) (htiles : tilesB 8 (u ++ y :: v2) (s1.hi - 8) = true)
    (hya : y.alloc = false)
    (hblocks : ∀ c ∈ u ++ v2, BlockOK s1.mem c)
    (hy16 : y.bsize % 16 = 0) (hys : 16 ≤ y.bsize)
    (hpro : rW s1.mem 0 = 1) (hepi : rW s1.mem (s1.hi - 8) = 1)
    (hchain : chainB s1.mem s1.first 0 fl1 = true)
    (hperm : List.Perm fl1 (freeNodes (u ++ v2)))
    (hcoal : coalOK (u ++ y :: v2) = true)
    (hhi16 : s1.hi % 16 = 0) (hhiMax : s1.hi ≤ s1.maxH)
    (hmaxB : s1.maxH ≤ 2 ^ 60) :
    Inv (coalMerge s1 y.addr y.bsize) (u ++ y :: v2) ((y.addr + 8) :: fl1) ∧
      (coalMerge s1 y.addr y.bsize).hi = s1.hi ∧
      (coalMerge s1 y.addr y.bsize).maxH = s1.maxH ∧
      (coalMerge s1 y.addr y.bsize).first = y.addr + 8 := by
  have hymem : y ∈ u ++ y :: v2 := by simp
  have hyb := tilesB_mem htiles y hymem
  have hhi60 : s1.hi ≤ 2 ^ 60 := le_trans hhiMax hmaxB
  have hnodes1 : ∀ z ∈ fl1, ∃ f ∈ u ++ v2, f.alloc = false ∧ z = f.addr + 8 :=
    fun z hz => freeNodes_mem.1 (hperm.subset hz)
  have hmemlift : ∀ f ∈ u ++ v2, f ∈ u ++ y :: v2 := by
    intro f hf
    rcases List.mem_append.1 hf with h1 | h1
    · exact List.mem_append_left _ h1
    · exact List.mem_append_right _ (List.mem_cons_of_mem y h1)
  have hp := tilesB_pairwise htiles
  have hextent : ∀ f ∈ u ++ v2, f.addr + f.bsize + 16 ≤ y.addr ∨
      y.addr + y.bsize + 16 ≤ f.addr := by
    intro f hf
    rcases pairwise_cases hp (hmemlift f hf) hymem with hc | hc | hc
    · exact Or.inl hc
    · exact Or.inr hc
    · subst hc
      exfalso
      rcases List.mem_append.1 hf with h1 | h1
      · have hsl : List.Pairwise (fun a b : BlockD => a.addr < b.addr)
            (u ++ f :: v2) := tilesB_strict htiles
        have : f.addr < f.addr :=
          (List.pairwise_append.1 hsl).2.2 f h1 f (List.mem_cons_self f v2)
        omega
      · have hsl : List.Pairwise (fun a b : BlockD => a.addr < b.addr)
            (f :: v2) :=
          (List.pairwise_append.1 (tilesB_strict htiles)).2.1
        have : f.addr < f.addr := (List.pairwise_cons.1 hsl).1 f h1
        omega
  have e1 : add64 y.addr y.bsize = y.addr + y.bsize := add64_eq (by omega)
  have e2 : add64 (add64 y.addr y.bsize) 8 = y.addr + y.bsize + 8 := by
    rw [e1]; exact add64_eq (by omega)
  have hfoot : y.addr + y.bsize + 8 = y.addr + 8 + y.bsize := by omega
  unfold coalMerge
  rw [e2, lsb_a_zero]
  set m2 : Nat → Nat :=
    wW (wW s1.mem y.addr y.bsize) (y.addr + y.bsize + 8) y.bsize with hm2
  have hyok : BlockOK m2 y := by
    refine ⟨?_, ?_, hy16, hys⟩
    · rw [hm2, rW_wW_ne _ (by omega), rW_wW_lt _ _ (by omega)]
      simp [encB, hya]
    · rw [hm2, ← hfoot, rW_wW_lt _ _ (by omega)]
      simp [encB, hya]
  have hok2 : ∀ c ∈ u ++ y :: v2, BlockOK m2 c := by
    intro c hc
    rcases List.mem_append.1 hc with h1 | h1
    · have hc2 : c ∈ u ++ v2 := List.mem_append_left _ h1
      have hce := hextent c hc2
      have hcs := (hblocks c hc2).2.2.2
      exact BlockOK_wW (BlockOK_wW (hblocks c hc2) _ _ (by omega) (by omega))
        _ _ (by omega) (by omega)
    · rcases List.mem_cons.1 h1 with rfl | h2
      · exact hyok
      · have hc2 : c ∈ u ++ v2 := List.mem_append_right _ h2
        have hce := hextent c hc2
        have hcs := (hblocks c hc2).2.2.2
        exact BlockOK_wW (BlockOK_wW (hblocks c hc2) _ _ (by omega)
          (by omega)) _ _ (by omega) (by omega)
  have hchain2 : chainB m2 s1.first 0 fl1 = true := by
    rw [hm2, chainB_wW_out, chainB_wW_out]
    · exact hchain
    · intro z hz
      obtain ⟨f, hf, hfa, rfl⟩ := hnodes1 z hz
      have := hextent f hf
      have := (hblocks f hf).2.2.2
      omega
    · intro z hz
      obtain ⟨f, hf, hfa, rfl⟩ := hnodes1 z hz
      have := hextent f hf
      have := (hblocks f hf).2.2.2
      omega
  have hpro2 : rW m2 0 = 1 := by
    rw [hm2, rW_wW_ne _ (by omega), rW_wW_ne _ (by omega)]
    exact hpro
  have hepi2 : rW m2 (s1.hi - 8) = 1 := by
    rw [hm2, rW_wW_ne _ (by omega), rW_wW_ne _ (by omega)]
    exact hepi
  exact pushFinish { s1 with mem := m2 } u v2 fl1 y htiles hya hok2 hpro2
    hepi2 hchain2 hperm hcoal hhi16 hhiMax hmaxB

theorem coalOKX_cons_of {x b : BlockD} {r : List BlockD}
    (hr : coalOKX x r = true)
    (hb : ∀ c, r.head? = some c →
      b = x ∨ c = x ∨ b.alloc = true ∨ c.alloc = true) :
    coalOKX x (b :: r) = true := by
  cases r with
  | nil => rfl
  | cons c t =>
    have he : coalOKX x (b :: c :: t) =
        ((b == x || c == x || b.alloc || c.alloc) && coalOKX x (c :: t)) := rfl
    rw [he, Bool.and_eq_true]
    refine ⟨?_, hr⟩
    simp only [Bool.or_eq_true, beq_iff_eq]
    have := hb c rfl
    tauto

theorem coalOKX_append_left : ∀ {u v : List BlockD} {x : BlockD},
    coalOKX x (u ++ v) = true → coalOKX x u = true := by
  intro u
  induction u with
  | nil => intro v x _; rfl
  | cons b r ih =>
    intro v x h
    apply coalOKX_cons_of (ih (coalOKX_tail h))
    intro c hc
    cases r with
    | nil => cases hc
    | cons d t =>
      simp only [List.head?_cons, Option.some.injEq] at hc
      rw [← hc]
      exact coalOKX_pair h

theorem mem_append_ne_mid {u v : List BlockD} {x : BlockD}
    (hs : List.Pairwise (fun a b : BlockD => a.addr < b.addr) (u ++ x :: v)) :
    ∀ c ∈ u ++ v, c ≠ x := by
  intro c hc heq
  subst heq
  rcases List.mem_append.1 hc with h1 | h1
  · exact absurd ((List.pairwise_append.1 hs).2.2 c h1 c
      (List.mem_cons_self c v)) (by omega)
  · exact absurd ((List.pairwise_cons.1 (List.pairwise_append.1 hs).2.1).1 c
      h1) (by omega)

theorem perm_drop_mid {fl : List Nat} {a : Nat} (l1 l2 : List Nat)
    (h : List.Perm (a :: fl) (l1 ++ a :: l2)) : List.Perm fl (l1 ++ l2) :=
  (h.trans List.perm_middle).cons_inv

theorem remove_step {s : St} {bs : List BlockD} {fl : List Nat}
    (htiles : tilesB 8 bs (s.hi - 8) = true)
    (hblocks : ∀ c ∈ bs, BlockOK s.mem c)
    (hpro : rW s.mem 0 = 1) (hepi : rW s.mem (s.hi - 8) = 1)
    (hchain : chainB s.mem s.first 0 fl = true)
    (henv : NodeEnv fl) (hnd : fl.Nodup)
    (hnodes : ∀ z ∈ fl, ∃ f ∈ bs, f.alloc = false ∧ z = f.addr + 8)
    {nb : Nat} (hmem : nb + 8 ∈ fl) :
    (∀ c ∈ bs, BlockOK (remove_node s nb).mem c) ∧
      rW (remove_node s nb).mem 0 = 1 ∧
      rW (remove_node s nb).mem (s.hi - 8) = 1 ∧
      chainB (remove_node s nb).mem (remove_node s nb).first 0
        (fl.erase (nb + 8)) = true ∧
      (remove_node s nb).hi = s.hi ∧ (remove_node s nb).maxH = s.maxH := by
  have hdll := remove_node_dll henv hnd hchain hmem
  have hsz : ∀ c ∈ bs, 16 ≤ c.bsize := fun c hc => (hblocks c hc).2.2.2
  have htag := tags_frame htiles hsz hnodes (fun y hy => hdll.2.1 y hy)
  exact ⟨fun c hc => htag.1 c hc (hblocks c hc),
    by rw [rW_frame (fun yb h1 h2 => htag.2.1 yb (by omega))]; exact hpro,
    by rw [rW_frame (fun yb h1 h2 => htag.2.2 yb (by omega))]; exact hepi,
    hdll.1, hdll.2.2.1, hdll.2.2.2.1⟩

/-- `coalesce` case 1 at the structural level: both physical neighbours
of the free block `x` are allocated, so the block is pushed unchanged. -/
theorem coalCaseNN {s : St} {u v : List BlockD} {fl : List Nat} {x : BlockD}
    (hpre : PreCo s (u ++ x :: v) fl x)
    (hu : ∀ a, u.getLast? = some a → a.alloc = true)
    (hv : ∀ b, v.head? = some b → b.alloc = true) :
    Inv (add_node s x.addr) (u ++ x :: v) ((x.addr + 8) :: fl) ∧
      (add_node s x.addr).hi = s.hi ∧ (add_node s x.addr).maxH = s.maxH ∧
      (add_node s x.addr).first = x.addr + 8 := by
  have hstrict := tilesB_strict hpre.tiles
  have hnex := mem_append_ne_mid hstrict
  refine pushFinish s u v fl x hpre.tiles hpre.xfree hpre.blocks hpre.pro
    hpre.epi hpre.chain ?_ ?_ hpre.hi16 hpre.hiMax hpre.maxB
  · rw [freeNodes_append]
    apply perm_drop_mid (freeNodes u) (freeNodes v)
    have := hpre.perm
    rwa [freeNodes_append, freeNodes_cons_free hpre.xfree] at this
  · have hcu : coalOK u = true :=
      coalOK_of_coalOKX (coalOKX_append_left hpre.coal)
        (fun c hc => hnex c (List.mem_append_left _ hc))
    have hcv : coalOK v = true :=
      coalOK_of_coalOKX (coalOKX_tail (coalOKX_append_right hpre.coal))
        (fun c hc => hnex c (List.mem_append_right _ hc))
    exact coalOK_mid hcu hcv (fun a ha => Or.inl (hu a ha))
      (fun b hb => Or.inr (hv b hb))

/-- `coalesce` case 2 at the structural level: the next block `nb` is
free, the previous neighbour (or heap start) is allocated; `nb` is
removed from the list and absorbed. -/
theorem coalCaseNF {s : St} {u v2 : List BlockD} {fl : List Nat}
    {x nb : BlockD} (hpre : PreCo s (u ++ x :: nb :: v2) fl x)
    (hu : ∀ a, u.getLast? = some a → a.alloc = true)
    (hnb : nb.alloc = false) :
    Inv (coalMerge (remove_node s nb.addr) x.addr (x.bsize + nb.bsize + 16))
        (u ++ (⟨x.addr, x.bsize + nb.bsize + 16, false⟩ : BlockD) :: v2)
        ((x.addr + 8) ::
          List.erase fl (nb.addr + 8)) ∧
      (coalMerge (remove_node s nb.addr) x.addr
          (x.bsize + nb.bsize + 16)).hi = s.hi ∧
      (coalMerge (remove_node s nb.addr) x.addr
          (x.bsize + nb.bsize + 16)).maxH = s.maxH ∧
      (coalMerge (remove_node s nb.addr) x.addr
          (x.bsize + nb.bsize + 16)).first = x.addr + 8 := by
  have hstrict := tilesB_strict hpre.tiles
  have hnex : ∀ c ∈ u ++ nb :: v2, c ≠ x := mem_append_ne_mid hstrict
  have hnbmem : nb ∈ u ++ x :: nb :: v2 := by simp
  have hxmem : x ∈ u ++ x :: nb :: v2 := by simp
  have hxlt : x.addr < nb.addr :=
    (List.pairwise_cons.1 (List.pairwise_append.1 hstrict).2.1).1 nb (by simp)
  have hfn : freeNodes (u ++ x :: nb :: v2) =
      freeNodes u ++ (x.addr + 8) :: (nb.addr + 8) :: freeNodes v2 := by
    rw [freeNodes_append, freeNodes_cons_free hpre.xfree,
      freeNodes_cons_free hnb]
  have hfnnd := freeNodes_nodup hpre.tiles
  rw [hfn] at hfnnd
  have hnbn_fl : nb.addr + 8 ∈ fl := by
    have h1 : nb.addr + 8 ∈ freeNodes (u ++ x :: nb :: v2) :=
      freeNodes_mem.2 ⟨nb, hnbmem, hnb, rfl⟩
    have h2 := hpre.perm.symm.subset h1
    rcases List.mem_cons.1 h2 with h3 | h3
    · exact absurd h3 (by omega)
    · exact h3
  have henv : NodeEnv fl :=
    NodeEnv_subset (PreCo_nodeEnv hpre) (fun z hz => List.mem_cons_of_mem _ hz)
  have hnd : fl.Nodup := (List.nodup_cons.1 (PreCo_nodup hpre)).2
  have hnodes : ∀ z ∈ fl, ∃ f ∈ u ++ x :: nb :: v2,
      f.alloc = false ∧ z = f.addr + 8 :=
    fun z hz => freeNodes_mem.1 (hpre.perm.subset (List.mem_cons_of_mem _ hz))
  have hrs := remove_step hpre.tiles hpre.blocks hpre.pro hpre.epi hpre.chain
    henv hnd hnodes hnbn_fl
  obtain ⟨hb1, hpro1, hepi1, hchain1, hhi1, hmax1⟩ := hrs
  -- tiling decomposition
  have hdec := tilesB_append.1 hpre.tiles
  obtain ⟨htu, htxv⟩ := hdec
  rw [tilesB_cons] at htxv
  obtain ⟨hxa, htnv⟩ := htxv
  rw [tilesB_cons] at htnv
  obtain ⟨hnba, htv2⟩ := htnv
  have hxok := hpre.blocks x hxmem
  have hnbok := hpre.blocks nb hnbmem
  have hxb := tilesB_mem hpre.tiles x hxmem
  have hnbb := tilesB_mem hpre.tiles nb hnbmem
  set y : BlockD := ⟨x.addr, x.bsize + nb.bsize + 16, false⟩ with hy
  have hfin := mergeFinish (remove_node s nb.addr) u v2
    (fl.erase (nb.addr + 8)) y
    (by
      rw [hhi1]
      apply tilesB_append.2
      refine ⟨htu, ?_⟩
      rw [tilesB_cons]
      refine ⟨hxa, ?_⟩
      have : endOf 8 u + y.bsize + 16 =
          endOf 8 u + x.bsize + 16 + nb.bsize + 16 := by
        show endOf 8 u + (x.bsize + nb.bsize + 16) + 16 =
          endOf 8 u + x.bsize + 16 + nb.bsize + 16
        omega
      rw [this]
      exact htv2)
    rfl
    (fun c hc => hb1 c (by
      rcases List.mem_append.1 hc with h1 | h1
      · exact List.mem_append_left _ h1
      · exact List.mem_append_right _
          (List.mem_cons_of_mem x (List.mem_cons_of_mem nb h1))))
    (by
      have h1 := hxok.2.2.1
      have h2 := hnbok.2.2.1
      show (x.bsize + nb.bsize + 16) % 16 = 0
      omega)
    (by show 16 ≤ x.bsize + nb.bsize + 16; omega)
    hpro1 (by rw [hhi1]; exact hepi1) hchain1
    (by
      have hp2 := hpre.perm
      rw [hfn] at hp2
      have hpm := perm_drop_mid _ _ hp2
      have hnotin : (nb.addr + 8) ∉ freeNodes u := by
        intro hin
        exact (List.nodup_append.1 hfnnd).2.2 hin
          (List.mem_cons_of_mem _ (List.mem_cons_self _ _))
      have herase : (freeNodes u ++ (nb.addr + 8) :: freeNodes v2).erase
          (nb.addr + 8) = freeNodes u ++ freeNodes v2 := by
        rw [List.erase_append_right _ hnotin, List.erase_cons_head]
      rw [freeNodes_append]
      have hpe := hpm.erase (nb.addr + 8)
      rwa [herase] at hpe)
    (by
      have hcu : coalOK u = true :=
        coalOK_of_coalOKX (coalOKX_append_left hpre.coal)
          (fun c hc => hnex c (List.mem_append_left _ hc))
      have hXnv : coalOKX x (nb :: v2) = true :=
        coalOKX_tail (coalOKX_append_right hpre.coal)
      have hcv2 : coalOK v2 = true :=
        coalOK_of_coalOKX (coalOKX_tail hXnv)
          (fun c hc => hnex c (List.mem_append_right _
            (List.mem_cons_of_mem nb hc)))
      apply coalOK_mid hcu hcv2
      · intro a ha
        exact Or.inl (hu a ha)
      · intro b hb
        cases v2 with
        | nil => cases hb
        | cons c t =>
          simp only [List.head?_cons, Option.some.injEq] at hb
          rw [← hb]
          rcases coalOKX_pair hXnv with h1 | h1 | h1 | h1
          · exact absurd h1 (hnex nb (by simp))
          · exact absurd h1 (hnex c (by simp))
          · exact absurd h1 (by simp [hnb])
          · exact Or.inr h1)
    (by rw [hhi1]; exact hpre.hi16)
    (by rw [hhi1, hmax1]; exact hpre.hiMax)
    (by rw [hmax1]; exact hpre.maxB)
  refine ⟨hfin.1, ?_, ?_, ?_⟩
  · rw [hfin.2.1, hhi1]
  · rw [hfin.2.2.1, hmax1]
  · exact hfin.2.2.2

theorem mem_of_getLast?_eq {α : Type} {l : List α} {a : α}
    (h : l.getLast? = some a) : a ∈ l := by
  obtain ⟨hne, heq⟩ := List.mem_getLast?_eq_getLast (Option.mem_def.2 h)
  rw [heq]
  exact List.getLast_mem hne

/-- `coalesce` case 3 at the structural level: the previous block `pb` is
free, the next neighbour (or epilogue) is allocated; `pb` is removed from
the list and the merged block starts at `pb.addr`. -/
theorem coalCaseFN {s : St} {u2 v : List BlockD} {fl : List Nat}
    {x pb : BlockD} (hpre : PreCo s ((u2 ++ [pb]) ++ x :: v) fl x)
    (hpb : pb.alloc = false)
    (hv : ∀ b, v.head? = some b → b.alloc = true) :
    Inv (coalMerge (remove_node s pb.addr) pb.addr (pb.bsize + x.bsize + 16))
        (u2 ++ (⟨pb.addr, pb.bsize + x.bsize + 16, false⟩ : BlockD) :: v)
        ((pb.addr + 8) :: List.erase fl (pb.addr + 8)) ∧
      (coalMerge (remove_node s pb.addr) pb.addr
          (pb.bsize + x.bsize + 16)).hi = s.hi ∧
      (coalMerge (remove_node s pb.addr) pb.addr
          (pb.bsize + x.bsize + 16)).maxH = s.maxH ∧
      (coalMerge (remove_node s pb.addr) pb.addr
          (pb.bsize + x.bsize + 16)).first = pb.addr + 8 := by
  have hstrict := tilesB_strict hpre.tiles
  have hnex : ∀ c ∈ (u2 ++ [pb]) ++ v, c ≠ x := mem_append_ne_mid hstrict
  have hpbmem : pb ∈ (u2 ++ [pb]) ++ x :: v := by simp
  have hxmem : x ∈ (u2 ++ [pb]) ++ x :: v := by simp
  -- tiling decomposition
  obtain ⟨htUp, htxv⟩ := tilesB_append.1 hpre.tiles
  rw [tilesB_cons] at htxv
  obtain ⟨hxa, htv⟩ := htxv
  obtain ⟨htu2, htpbseg⟩ := tilesB_append.1 htUp
  rw [tilesB_cons] at htpbseg
  obtain ⟨hpba, hrest⟩ := htpbseg
  have hend : endOf 8 u2 + pb.bsize + 16 = endOf 8 (u2 ++ [pb]) :=
    tilesB_nil.1 hrest
  have hpblt : pb.addr < x.addr := by omega
  have hfn : freeNodes ((u2 ++ [pb]) ++ x :: v) =
      (freeNodes u2 ++ [pb.addr + 8]) ++ (x.addr + 8) :: freeNodes v := by
    rw [freeNodes_append, freeNodes_cons_free hpre.xfree, freeNodes_append,
      freeNodes_cons_free hpb]
    rfl
  have hfnnd := freeNodes_nodup hpre.tiles
  rw [hfn] at hfnnd
  have hpbn_fl : pb.addr + 8 ∈ fl := by
    have h1 : pb.addr + 8 ∈ freeNodes ((u2 ++ [pb]) ++ x :: v) :=
      freeNodes_mem.2 ⟨pb, hpbmem, hpb, rfl⟩
    have h2 := hpre.perm.symm.subset h1
    rcases List.mem_cons.1 h2 with h3 | h3
    · exact absurd h3 (by omega)
    · exact h3
  have henv : NodeEnv fl :=
    NodeEnv_subset (PreCo_nodeEnv hpre) (fun z hz => List.mem_cons_of_mem _ hz)
  have hnd : fl.Nodup := (List.nodup_cons.1 (PreCo_nodup hpre)).2
  have hnodes : ∀ z ∈ fl, ∃ f ∈ (u2 ++ [pb]) ++ x :: v,
      f.alloc = false ∧ z = f.addr + 8 :=
    fun z hz => freeNodes_mem.1 (hpre.perm.subset (List.mem_cons_of_mem _ hz))
  have hrs := remove_step hpre.tiles hpre.blocks hpre.pro hpre.epi hpre.chain
    henv hnd hnodes hpbn_fl
  obtain ⟨hb1, hpro1, hepi1, hchain1, hhi1, hmax1⟩ := hrs
  have hxok := hpre.blocks x hxmem
  have hpbok := hpre.blocks pb hpbmem
  set y : BlockD := ⟨pb.addr, pb.bsize + x.bsize + 16, false⟩ with hy
  have hassoc : (u2 ++ [pb]) ++ x :: v = u2 ++ pb :: x :: v := by
    rw [List.append_assoc, List.singleton_append]
  have hfin := mergeFinish (remove_node s pb.addr) u2 v
    (fl.erase (pb.addr + 8)) y
    (by
      rw [hhi1]
      apply tilesB_append.2
      refine ⟨htu2, ?_⟩
      rw [tilesB_cons]
      refine ⟨hpba, ?_⟩
      have : endOf 8 u2 + y.bsize + 16 =
          endOf 8 (u2 ++ [pb]) + x.bsize + 16 := by
        show endOf 8 u2 + (pb.bsize + x.bsize + 16) + 16 =
          endOf 8 (u2 ++ [pb]) + x.bsize + 16
        omega
      rw [this]
      exact htv)
    rfl
    (fun c hc => hb1 c (by
      rcases List.mem_append.1 hc with h1 | h1
      · exact List.mem_append_left _ (List.mem_append_left _ h1)
      · exact List.mem_append_right _ (List.mem_cons_of_mem x h1)))
    (by
      have h1 := hxok.2.2.1
      have h2 := hpbok.2.2.1
      show (pb.bsize + x.bsize + 16) % 16 = 0
      omega)
    (by show 16 ≤ pb.bsize + x.bsize + 16; omega)
    hpro1 (by rw [hhi1]; exact hepi1) hchain1
    (by
      have hp2 := hpre.perm
      rw [hfn] at hp2
      have hpm := perm_drop_mid _ _ hp2
      have hnotin : (pb.addr + 8) ∉ freeNodes u2 := by
        intro hin
        have hnd2 := (List.nodup_append.1
          (List.nodup_append.1 hfnnd).1).2.2
        exact hnd2 hin (List.mem_cons_self _ _)
      have herase : ((freeNodes u2 ++ [pb.addr + 8]) ++ freeNodes v).erase
          (pb.addr + 8) = freeNodes u2 ++ freeNodes v := by
        rw [List.append_assoc, List.singleton_append,
          List.erase_append_right _ hnotin, List.erase_cons_head]
      rw [freeNodes_append]
      have hpe := hpm.erase (pb.addr + 8)
      rwa [herase] at hpe)
    (by
      have hcoalx := hpre.coal
      rw [CoalescedX, hassoc] at hcoalx
      have hcu2 : coalOK u2 = true :=
        coalOK_of_coalOKX (coalOKX_append_left hcoalx)
          (fun c hc => hnex c
            (List.mem_append_left _ (List.mem_append_left _ hc)))
      have hcv : coalOK v = true :=
        coalOK_of_coalOKX
          (coalOKX_tail (coalOKX_tail (coalOKX_append_right hcoalx)))
          (fun c hc => hnex c (List.mem_append_right _ hc))
      apply coalOK_mid hcu2 hcv
      · intro a ha
        have hb2 := coalOKX_boundary hcoalx a ha
        rcases hb2 with h1 | h1 | h1 | h1
        · exact absurd h1 (hnex a
            (List.mem_append_left _ (List.mem_append_left _
              (mem_of_getLast?_eq ha))))
        · exact absurd h1 (hnex pb
            (List.mem_append_left _ (by simp)))
        · exact Or.inl h1
        · exact absurd h1 (by simp [hpb])
      · intro b hb
        exact Or.inr (hv b hb))
    (by rw [hhi1]; exact hpre.hi16)
    (by rw [hhi1, hmax1]; exact hpre.hiMax)
    (by rw [hmax1]; exact hpre.maxB)
  refine ⟨hfin.1, ?_, ?_, ?_⟩
  · rw [hfin.2.1, hhi1]
  · rw [hfin.2.2.1, hmax1]
  · exact hfin.2.2.2

/-- `coalesce` case 4 at the structural level: both physical neighbours
`pb` and `nb` are free; both are removed from the list and the merged
block spans all three. -/
theorem coalCaseFF {s : St} {u2 v2 : List BlockD} {fl : List Nat}
    {x pb nb : BlockD} (hpre : PreCo s ((u2 ++ [pb]) ++ x :: nb :: v2) fl x)
    (hpb : pb.alloc = false) (hnb : nb.alloc = false) :
    Inv (coalMerge (remove_node (remove_node s pb.addr) nb.addr) pb.addr
          (pb.bsize + x.bsize + nb.bsize + 32))
        (u2 ++ (⟨pb.addr, pb.bsize + x.bsize + nb.bsize + 32, false⟩ :
            BlockD) :: v2)
        ((pb.addr + 8) ::
          (List.erase (List.erase fl (pb.addr + 8)) (nb.addr + 8))) ∧
      (coalMerge (remove_node (remove_node s pb.addr) nb.addr) pb.addr
          (pb.bsize + x.bsize + nb.bsize + 32)).hi = s.hi ∧
      (coalMerge (remove_node (remove_node s pb.addr) nb.addr) pb.addr
          (pb.bsize + x.bsize + nb.bsize + 32)).maxH = s.maxH ∧
      (coalMerge (remove_node (remove_node s pb.addr) nb.addr) pb.addr
          (pb.bsize + x.bsize + nb.bsize + 32)).first = pb.addr + 8 := by
  have hstrict := tilesB_strict hpre.tiles
  have hnex : ∀ c ∈ (u2 ++ [pb]) ++ nb :: v2, c ≠ x :=
    mem_append_ne_mid hstrict
  have hpbmem : pb ∈ (u2 ++ [pb]) ++ x :: nb :: v2 := by simp
  have hnbmem : nb ∈ (u2 ++ [pb]) ++ x :: nb :: v2 := by simp
  have hxmem : x ∈ (u2 ++ [pb]) ++ x :: nb :: v2 := by simp
  obtain ⟨htUp, htxv⟩ := tilesB_append.1 hpre.tiles
  rw [tilesB_cons] at htxv
  obtain ⟨hxa, htnv⟩ := htxv
  rw [tilesB_cons] at htnv
  obtain ⟨hnba, htv2⟩ := htnv
  obtain ⟨htu2, htpbseg⟩ := tilesB_append.1 htUp
  rw [tilesB_cons] at htpbseg
  obtain ⟨hpba, hrest⟩ := htpbseg
  have hend : endOf 8 u2 + pb.bsize + 16 = endOf 8 (u2 ++ [pb]) :=
    tilesB_nil.1 hrest
  have hpblt : pb.addr < x.addr := by omega
  have hnblt : x.addr < nb.addr := by omega
  have hfn : freeNodes ((u2 ++ [pb]) ++ x :: nb :: v2) =
      (freeNodes u2 ++ [pb.addr + 8]) ++
        (x.addr + 8) :: (nb.addr + 8) :: freeNodes v2 := by
    rw [freeNodes_append, freeNodes_cons_free hpre.xfree,
      freeNodes_cons_free hnb, freeNodes_append, freeNodes_cons_free hpb]
    rfl
  have hfnnd := freeNodes_nodup hpre.tiles
  rw [hfn] at hfnnd
  have hpbn_fl : pb.addr + 8 ∈ fl := by
    have h1 : pb.addr + 8 ∈ freeNodes ((u2 ++ [pb]) ++ x :: nb :: v2) :=
      freeNodes_mem.2 ⟨pb, hpbmem, hpb, rfl⟩
    have h2 := hpre.perm.symm.subset h1
    rcases List.mem_cons.1 h2 with h3 | h3
    · exact absurd h3 (by omega)
    · exact h3
  have hnbn_fl : nb.addr + 8 ∈ fl := by
    have h1 : nb.addr + 8 ∈ freeNodes ((u2 ++ [pb]) ++ x :: nb :: v2) :=
      freeNodes_mem.2 ⟨nb, hnbmem, hnb, rfl⟩
    have h2 := hpre.perm.symm.subset h1
    rcases List.mem_cons.1 h2 with h3 | h3
    · exact absurd h3 (by omega)
    · exact h3
  have henv : NodeEnv fl :=
    NodeEnv_subset (PreCo_nodeEnv hpre) (fun z hz => List.mem_cons_of_mem _ hz)
  have hnd : fl.Nodup := (List.nodup_cons.1 (PreCo_nodup hpre)).2
  have hnodes : ∀ z ∈ fl, ∃ f ∈ (u2 ++ [pb]) ++ x :: nb :: v2,
      f.alloc = false ∧ z = f.addr + 8 :=
    fun z hz => freeNodes_mem.1 (hpre.perm.subset (List.mem_cons_of_mem _ hz))
  have hrs := remove_step hpre.tiles hpre.blocks hpre.pro hpre.epi hpre.chain
    henv hnd hnodes hpbn_fl
  obtain ⟨hb1, hpro1, hepi1, hchain1, hhi1, hmax1⟩ := hrs
  have hrs2 := remove_step (s := remove_node s pb.addr)
    (by rw [hhi1]; exact hpre.tiles) hb1 hpro1 (by rw [hhi1]; exact hepi1)
    hchain1 (NodeEnv_subset henv (fun z hz => List.mem_of_mem_erase hz))
    (hnd.erase _)
    (fun z hz => hnodes z (List.mem_of_mem_erase hz))
    ((List.mem_erase_of_ne (by omega)).2 hnbn_fl)
  obtain ⟨hb2, hpro2, hepi2, hchain2, hhi2, hmax2⟩ := hrs2
  rw [hhi1] at hhi2 hepi2
  have hxok := hpre.blocks x hxmem
  have hpbok := hpre.blocks pb hpbmem
  have hnbok := hpre.blocks nb hnbmem
  set y : BlockD := ⟨pb.addr, pb.bsize + x.bsize + nb.bsize + 32, false⟩
    with hy
  have hassoc : (u2 ++ [pb]) ++ x :: nb :: v2 = u2 ++ pb :: x :: nb :: v2 := by
    rw [List.append_assoc, List.singleton_append]
  have hfin := mergeFinish (remove_node (remove_node s pb.addr) nb.addr)
    u2 v2 ((fl.erase (pb.addr + 8)).erase (nb.addr + 8)) y
    (by
      rw [hhi2]
      apply tilesB_append.2
      refine ⟨htu2, ?_⟩
      rw [tilesB_cons]
      refine ⟨hpba, ?_⟩
      have : endOf 8 u2 + y.bsize + 16 =
          endOf 8 (u2 ++ [pb]) + x.bsize + 16 + nb.bsize + 16 := by
        show endOf 8 u2 + (pb.bsize + x.bsize + nb.bsize + 32) + 16 =
          endOf 8 (u2 ++ [pb]) + x.bsize + 16 + nb.bsize + 16
        omega
      rw [this]
      exact htv2)
    rfl
    (fun c hc => hb2 c (by
      rcases List.mem_append.1 hc with h1 | h1
      · exact List.mem_append_left _ (List.mem_append_left _ h1)
      · exact List.mem_append_right _
          (List.mem_cons_of_mem x (List.mem_cons_of_mem nb h1))))
    (by
      have h1 := hxok.2.2.1
      have h2 := hpbok.2.2.1
      have h3 := hnbok.2.2.1
      show (pb.bsize + x.bsize + nb.bsize + 32) % 16 = 0
      omega)
    (by show 16 ≤ pb.bsize + x.bsize + nb.bsize + 32; omega)
    hpro2 (by rw [hhi2]; exact hepi2) hchain2
    (by
      have hp2 := hpre.perm
      rw [hfn] at hp2
      have hpm := perm_drop_mid _ _ hp2
      have hpbnotin : (pb.addr + 8) ∉ freeNodes u2 := by
        intro hin
        have hnd2 := (List.nodup_append.1
          (List.nodup_append.1 hfnnd).1).2.2
        exact hnd2 hin (List.mem_cons_self _ _)
      have hnbnotin : (nb.addr + 8) ∉ freeNodes u2 := by
        intro hin
        exact (List.nodup_append.1 hfnnd).2.2
          (List.mem_append_left _ hin)
          (List.mem_cons_of_mem _ (List.mem_cons_self _ _))
      have herase1 : (((freeNodes u2 ++ [pb.addr + 8]) ++
          (nb.addr + 8) :: freeNodes v2).erase (pb.addr + 8)) =
          freeNodes u2 ++ (nb.addr + 8) :: freeNodes v2 := by
        rw [List.append_assoc, List.singleton_append,
          List.erase_append_right _ hpbnotin, List.erase_cons_head]
      have herase2 : ((freeNodes u2 ++ (nb.addr + 8) :: freeNodes v2).erase
          (nb.addr + 8)) = freeNodes u2 ++ freeNodes v2 := by
        rw [List.erase_append_right _ hnbnotin, List.erase_cons_head]
      rw [freeNodes_append]
      have hpe := (hpm.erase (pb.addr + 8)).erase (nb.addr + 8)
      rwa [herase1, herase2] at hpe)
    (by
      have hcoalx := hpre.coal
      rw [CoalescedX, hassoc] at hcoalx
      have hcu2 : coalOK u2 = true :=
        coalOK_of_coalOKX (coalOKX_append_left hcoalx)
          (fun c hc => hnex c
            (List.mem_append_left _ (List.mem_append_left _ hc)))
      have hXnv : coalOKX x (nb :: v2) = true :=
        coalOKX_tail (coalOKX_tail (coalOKX_append_right hcoalx))
      have hcv2 : coalOK v2 = true :=
        coalOK_of_coalOKX (coalOKX_tail hXnv)
          (fun c hc => hnex c (List.mem_append_right _
            (List.mem_cons_of_mem nb hc)))
      apply coalOK_mid hcu2 hcv2
      · intro a ha
        have hb3 := coalOKX_boundary hcoalx a ha
        rcases hb3 with h1 | h1 | h1 | h1
        · exact absurd h1 (hnex a
            (List.mem_append_left _ (List.mem_append_left _
              (mem_of_getLast?_eq ha))))
        · exact absurd h1 (hnex pb
            (List.mem_append_left _ (by simp)))
        · exact Or.inl h1
        · exact absurd h1 (by simp [hpb])
      · intro b hb
        cases v2 with
        | nil => cases hb
        | cons c t =>
          simp only [List.head?_cons, Option.some.injEq] at hb
          rw [← hb]
          rcases coalOKX_pair hXnv with h1 | h1 | h1 | h1
          · exact absurd h1 (hnex nb (List.mem_append_right _ (by simp)))
          · exact absurd h1 (hnex c (List.mem_append_right _ (by simp)))
          · exact absurd h1 (by simp [hnb])
          · exact Or.inr h1)
    (by rw [hhi2]; exact hpre.hi16)
    (by rw [hhi2, hmax2, hmax1]; exact hpre.hiMax)
    (by rw [hmax2, hmax1]; exact hpre.maxB)
  refine ⟨hfin.1, ?_, ?_, ?_⟩
  · rw [hfin.2.1, hhi2]
  · rw [hfin.2.2.1, hmax2, hmax1]
  · exact hfin.2.2.2

theorem coalGo_tt {s : St} {b pv nx : Nat}
    (h1 : get_allocated s.mem pv = true) (h2 : get_allocated s.mem nx = true) :
    coalGo s b pv nx = add_node s b := by
  unfold coalGo
  rw [h1, h2]
  rfl

theorem coalGo_tf {s : St} {b pv nx : Nat}
    (h1 : get_allocated s.mem pv = true)
    (h2 : get_allocated s.mem nx = false) :
    coalGo s b pv nx = coalMerge (remove_node s nx) b
      (add64 (get_size s.mem b) (add64 (get_size s.mem nx) 16)) := by
  unfold coalGo
  rw [h1, h2]
  rfl

theorem coalGo_ft {s : St} {b pv nx : Nat}
    (h1 : get_allocated s.mem pv = false)
    (h2 : get_allocated s.mem nx = true) :
    coalGo s b pv nx = coalMerge (remove_node s pv) pv
      (add64 (get_size s.mem b) (add64 (get_size s.mem pv) 16)) := by
  unfold coalGo
  rw [h1, h2]
  rfl

theorem coalGo_ff {s : St} {b pv nx : Nat}
    (h1 : get_allocated s.mem pv = false)
    (h2 : get_allocated s.mem nx = false) :
    coalGo s b pv nx = coalMerge (remove_node (remove_node s pv) nx) pv
      (add64 (get_size s.mem b)
        (add64 (add64 (get_size s.mem pv) (get_size s.mem nx)) 32)) := by
  unfold coalGo
  rw [h1, h2]
  rfl

theorem alloc_pres_one {u v : List BlockD} {x y c : BlockD}
    (hc : c.alloc = true) (hx : x.alloc = false) (hy : y.alloc = false) :
    c ∈ u ++ x :: v ↔ c ∈ u ++ y :: v := by
  simp only [List.mem_append, List.mem_cons]
  constructor
  · rintro (h | h | h)
    · exact Or.inl h
    · subst h; rw [hc] at hx; cases hx
    · exact Or.inr (Or.inr h)
  · rintro (h | h | h)
    · exact Or.inl h
    · subst h; rw [hc] at hy; cases hy
    · exact Or.inr (Or.inr h)

theorem alloc_pres_two {u v : List BlockD} {x1 x2 y c : BlockD}
    (hc : c.alloc = true) (hx1 : x1.alloc = false) (hx2 : x2.alloc = false)
    (hy : y.alloc = false) :
    c ∈ u ++ x1 :: x2 :: v ↔ c ∈ u ++ y :: v := by
  simp only [List.mem_append, List.mem_cons]
  constructor
  · rintro (h | h | h | h)
    · exact Or.inl h
    · subst h; rw [hc] at hx1; cases hx1
    · subst h; rw [hc] at hx2; cases hx2
    · exact Or.inr (Or.inr h)
  · rintro (h | h | h)
    · exact Or.inl h
    · subst h; rw [hc] at hy; cases hy
    · exact Or.inr (Or.inr (Or.inr h))

theorem alloc_pres_three {u v : List BlockD} {x1 x2 x3 y c : BlockD}
    (hc : c.alloc = true) (hx1 : x1.alloc = false) (hx2 : x2.alloc = false)
    (hx3 : x3.alloc = false) (hy : y.alloc = false) :
    c ∈ u ++ x1 :: x2 :: x3 :: v ↔ c ∈ u ++ y :: v := by
  simp only [List.mem_append, List.mem_cons]
  constructor
  · rintro (h | h | h | h | h)
    · exact Or.inl h
    · subst h; rw [hc] at hx1; cases hx1
    · subst h; rw [hc] at hx2; cases hx2
    · subst h; rw [hc] at hx3; cases hx3
    · exact Or.inr (Or.inr h)
  · rintro (h | h | h)
    · exact Or.inl h
    · subst h; rw [hc] at hy; cases hy
    · exact Or.inr (Or.inr (Or.inr (Or.inr h)))

/-- Master lemma for `coalesce`: entered in a `PreCo` state on the free
block `x`, it produces a well-formed state whose block list replaces the
maximal free run around `x` by one merged free block `y`; allocated
blocks are untouched, and the merged block's address is `x.addr` exactly
when the previous physical neighbour is allocated (or `x` is first). -/
theorem coalesce_preserve {s : St} {bs : List BlockD} {fl : List Nat}
    {x : BlockD} (hpre0 : PreCo s bs fl x) :
    ∃ bs2 fl2 y, Inv (coalesce s x.addr) bs2 fl2 ∧
      y ∈ bs2 ∧ y.alloc = false ∧ y.addr ≤ x.addr ∧
      x.addr + x.bsize ≤ y.addr + y.bsize ∧
      (∀ c : BlockD, c.alloc = true → (c ∈ bs ↔ c ∈ bs2)) ∧
      (coalesce s x.addr).hi = s.hi ∧ (coalesce s x.addr).maxH = s.maxH ∧
      (coalesce s x.addr).first = y.addr + 8 ∧
      (x.addr = 8 ∨ get_allocated s.mem (prev_blk s.mem x.addr) = true →
        y.addr = x.addr) ∧
      (x.addr ≠ 8 → get_allocated s.mem (prev_blk s.mem x.addr) = false →
        y.addr = prev_blk s.mem x.addr) := by
  obtain ⟨u, v, hbs⟩ := List.append_of_mem hpre0.xmem
  subst hbs
  have hpre := hpre0
  have hxmem : x ∈ u ++ x :: v := by simp
  have hxok := hpre.blocks x hxmem
  have hxb := tilesB_mem hpre.tiles x hxmem
  have hhi48 := PreCo_hi48 hpre
  have hhi60 : s.hi ≤ 2 ^ 60 := le_trans hpre.hiMax hpre.maxB
  obtain ⟨htu, htxv⟩ := tilesB_append.1 hpre.tiles
  have htxv2 := htxv
  rw [tilesB_cons] at htxv2
  obtain ⟨hxa, htv⟩ := htxv2
  have hs8 : sub64 x.addr 8 = x.addr - 8 := sub64_eq (by omega) (by omega)
  have hsizex : get_size s.mem x.addr = x.bsize := hxok.size_head
  have hxsz := hxok.2.2.2
  have ea1 : add64 x.addr x.bsize = x.addr + x.bsize := add64_eq (by omega)
  have ea2 : add64 (x.addr + x.bsize) 16 = x.addr + x.bsize + 16 :=
    add64_eq (by omega)
  have ea3 : add64 (x.addr + x.bsize) 8 = x.addr + x.bsize + 8 :=
    add64_eq (by omega)
  have hnxv : next_blk s.mem x.addr = x.addr + x.bsize + 16 := by
    unfold next_blk
    rw [hsizex, ea1, ea2]
  have hb2v : get_size s.mem
      (add64 (add64 x.addr (get_size s.mem x.addr)) 8) = x.bsize := by
    rw [hsizex, ea1, ea3]
    have h9 : x.addr + x.bsize + 8 = x.addr + 8 + x.bsize := by omega
    rw [h9]
    exact hxok.size_foot
  have hgaepi : x.addr + x.bsize + 16 = s.hi - 8 →
      get_allocated s.mem (x.addr + x.bsize + 16) = true := by
    intro he
    rw [he, get_allocated_ne s.mem (by omega), hpre.epi]
    rfl
  by_cases hu0 : u = []
  · subst hu0
    have he0 : endOf 8 ([] : List BlockD) = 8 := rfl
    have hx8 : x.addr = 8 := hxa.trans he0
    have hc1 : get_size s.mem (sub64 x.addr 8) = 0 := by
      rw [hs8, hx8]
      show get_size s.mem 0 = 0
      unfold get_size
      rw [hpre.pro]
    have hco : coalesce s x.addr =
        coalGo s x.addr 0 (next_blk s.mem x.addr) := by
      unfold coalesce
      rw [if_pos hc1]
    cases v with
    | nil =>
      have h1 := tilesB_nil.1 htv
      have hvend : x.addr + x.bsize + 16 = s.hi - 8 := by omega
      have hga : get_allocated s.mem (next_blk s.mem x.addr) = true := by
        rw [hnxv]
        exact hgaepi hvend
      have hgo := coalGo_tt (s := s) (b := x.addr)
        (get_allocated_zero s.mem) hga
      have hcnn := coalCaseNN (u := []) (v := []) hpre
        (fun a ha => by cases ha) (fun b hb => by cases hb)
      rw [hco, hgo]
      exact ⟨_, _, x, hcnn.1, by simp, hpre.xfree, le_refl _, le_refl _,
        fun c hc => Iff.rfl, hcnn.2.1, hcnn.2.2.1, hcnn.2.2.2,
        fun _ => rfl, fun hne _ => absurd hx8 hne⟩
    | cons nb v2 =>
      have hnbmem : nb ∈ ([] : List BlockD) ++ x :: nb :: v2 := by simp
      have hnbok := hpre.blocks nb hnbmem
      have hnbb := tilesB_mem hpre.tiles nb hnbmem
      have htvc := htv
      rw [tilesB_cons] at htvc
      obtain ⟨hnba, htv2⟩ := htvc
      have hnbaddr : nb.addr = x.addr + x.bsize + 16 := by omega
      have hganb : get_allocated s.mem (next_blk s.mem x.addr) = nb.alloc := by
        rw [hnxv, ← hnbaddr]
        exact hnbok.alloc_head (by omega)
      by_cases hnal : nb.alloc = true
      · have hgo := coalGo_tt (s := s) (b := x.addr)
          (get_allocated_zero s.mem) (by rw [hganb, hnal])
        have hcnn := coalCaseNN (u := []) (v := nb :: v2) hpre
          (fun a ha => by cases ha)
          (fun b hb => by
            simp only [List.head?_cons, Option.some.injEq] at hb
            rw [← hb]
            exact hnal)
        rw [hco, hgo]
        exact ⟨_, _, x, hcnn.1, by simp, hpre.xfree, le_refl _, le_refl _,
          fun c hc => Iff.rfl, hcnn.2.1, hcnn.2.2.1, hcnn.2.2.2,
          fun _ => rfl, fun hne _ => absurd hx8 hne⟩
      · have hnal' : nb.alloc = false := by
          cases hb : nb.alloc
          · rfl
          · exact absurd hb hnal
        have hgo := coalGo_tf (s := s) (b := x.addr)
          (get_allocated_zero s.mem) (by rw [hganb, hnal'])
        have harg : add64 (get_size s.mem x.addr)
            (add64 (get_size s.mem nb.addr) 16) =
            x.bsize + nb.bsize + 16 := by
          have eb1 : add64 nb.bsize 16 = nb.bsize + 16 := add64_eq (by omega)
          have eb2 : add64 x.bsize (nb.bsize + 16) =
              x.bsize + (nb.bsize + 16) := add64_eq (by omega)
          rw [hsizex, hnbok.size_head, eb1, eb2]
          omega
        have hgo2 : coalesce s x.addr =
            coalMerge (remove_node s nb.addr) x.addr
              (x.bsize + nb.bsize + 16) := by
          rw [hco, hgo, hnxv, ← hnbaddr, harg]
        have hcnf := coalCaseNF (u := []) hpre
          (fun a ha => by cases ha) hnal'
        rw [hgo2]
        refine ⟨_, _, ⟨x.addr, x.bsize + nb.bsize + 16, false⟩, hcnf.1,
          by simp, rfl, le_refl _, ?_, ?_, hcnf.2.1, hcnf.2.2.1,
          hcnf.2.2.2, fun _ => rfl, fun hne _ => absurd hx8 hne⟩
        · show x.addr + x.bsize ≤ x.addr + (x.bsize + nb.bsize + 16)
          omega
        · intro c hc
          exact alloc_pres_two hc hpre.xfree hnal' rfl
  · obtain ⟨u2, pb, hue⟩ := (List.eq_nil_or_concat u).resolve_left hu0
    rw [List.concat_eq_append] at hue
    subst hue
    obtain ⟨htu2, htpbseg⟩ := tilesB_append.1 htu
    rw [tilesB_cons] at htpbseg
    obtain ⟨hpba, hrest⟩ := htpbseg
    have hend : endOf 8 u2 + pb.bsize + 16 = endOf 8 (u2 ++ [pb]) :=
      tilesB_nil.1 hrest
    have hpbmem : pb ∈ (u2 ++ [pb]) ++ x :: v := by simp
    have hpbok := hpre.blocks pb hpbmem
    have hpbsz := hpbok.2.2.2
    have hpbb := tilesB_mem hpre.tiles pb hpbmem
    have hpbaddr_x : pb.addr + pb.bsize + 16 = x.addr := by omega
    have hx8ne : x.addr ≠ 8 := by omega
    have hfoots : get_size s.mem (sub64 x.addr 8) = pb.bsize := by
      rw [hs8]
      have h9 : x.addr - 8 = pb.addr + 8 + pb.bsize := by omega
      rw [h9]
      exact hpbok.size_foot
    have hc1ne : ¬ get_size s.mem (sub64 x.addr 8) = 0 := by
      rw [hfoots]
      omega
    have hprevb : prev_blk s.mem x.addr = pb.addr := by
      have es1 : sub64 x.addr pb.bsize = x.addr - pb.bsize :=
        sub64_eq (by omega) (by omega)
      have es2 : sub64 (x.addr - pb.bsize) 16 = x.addr - pb.bsize - 16 :=
        sub64_eq (by omega) (by omega)
      unfold prev_blk
      rw [hfoots, es1, es2]
      omega
    have hco : coalesce s x.addr =
        coalGo s x.addr (prev_blk s.mem x.addr) (next_blk s.mem x.addr) := by
      unfold coalesce
      rw [if_neg hc1ne, if_neg (by rw [hb2v]; omega)]
    have hgapb : get_allocated s.mem (prev_blk s.mem x.addr) = pb.alloc := by
      rw [hprevb]
      exact hpbok.alloc_head (by omega)
    have hassoc : (u2 ++ [pb]) ++ x :: v = u2 ++ pb :: x :: v := by
      rw [List.append_assoc, List.singleton_append]
    by_cases hpal : pb.alloc = true
    · have hub : ∀ a, (u2 ++ [pb]).getLast? = some a → a.alloc = true := by
        intro a ha
        have h9 : a = pb := by
          rw [List.getLast?_concat] at ha
          exact (Option.some.inj ha).symm
        rw [h9]
        exact hpal
      cases v with
      | nil =>
        have h1 := tilesB_nil.1 htv
        have hvend : x.addr + x.bsize + 16 = s.hi - 8 := by omega
        have hga : get_allocated s.mem (next_blk s.mem x.addr) = true := by
          rw [hnxv]
          exact hgaepi hvend
        have hgo := coalGo_tt (s := s) (b := x.addr)
          (by rw [hgapb]; exact hpal) hga
        have hcnn := coalCaseNN (u := u2 ++ [pb]) (v := []) hpre hub
          (fun b hb => by cases hb)
        rw [hco, hgo]
        refine ⟨_, _, x, hcnn.1, by simp, hpre.xfree, le_refl _, le_refl _,
          fun c hc => Iff.rfl, hcnn.2.1, hcnn.2.2.1, hcnn.2.2.2,
          fun _ => rfl, ?_⟩
        intro _ hf
        rw [hgapb, hpal] at hf
        cases hf
      | cons nb v2 =>
        have hnbmem : nb ∈ (u2 ++ [pb]) ++ x :: nb :: v2 := by simp
        have hnbok := hpre.blocks nb hnbmem
        have hnbb := tilesB_mem hpre.tiles nb hnbmem
        have htvc := htv
        rw [tilesB_cons] at htvc
        obtain ⟨hnba, htv2⟩ := htvc
        have hnbaddr : nb.addr = x.addr + x.bsize + 16 := by omega
        have hganb : get_allocated s.mem (next_blk s.mem x.addr) =
            nb.alloc := by
          rw [hnxv, ← hnbaddr]
          exact hnbok.alloc_head (by omega)
        by_cases hnal : nb.alloc = true
        · have hgo := coalGo_tt (s := s) (b := x.addr)
            (by rw [hgapb]; exact hpal) (by rw [hganb, hnal])
          have hcnn := coalCaseNN (u := u2 ++ [pb]) (v := nb :: v2) hpre hub
            (fun b hb => by
              simp only [List.head?_cons, Option.some.injEq] at hb
              rw [← hb]
              exact hnal)
          rw [hco, hgo]
          refine ⟨_, _, x, hcnn.1, by simp, hpre.xfree, le_refl _, le_refl _,
            fun c hc => Iff.rfl, hcnn.2.1, hcnn.2.2.1, hcnn.2.2.2,
            fun _ => rfl, ?_⟩
          intro _ hf
          rw [hgapb, hpal] at hf
          cases hf
        · have hnal' : nb.alloc = false := by
            cases hb : nb.alloc
            · rfl
            · exact absurd hb hnal
          have hgo := coalGo_tf (s := s) (b := x.addr)
            (by rw [hgapb]; exact hpal) (by rw [hganb, hnal'])
          have harg : add64 (get_size s.mem x.addr)
              (add64 (get_size s.mem nb.addr) 16) =
              x.bsize + nb.bsize + 16 := by
            have eb1 : add64 nb.bsize 16 = nb.bsize + 16 := add64_eq (by omega)
            have eb2 : add64 x.bsize (nb.bsize + 16) =
                x.bsize + (nb.bsize + 16) := add64_eq (by omega)
            rw [hsizex, hnbok.size_head, eb1, eb2]
            omega
          have hgo2 : coalesce s x.addr =
              coalMerge (remove_node s nb.addr) x.addr
                (x.bsize + nb.bsize + 16) := by
            rw [hco, hgo, hnxv, ← hnbaddr, harg]
          have hcnf := coalCaseNF (u := u2 ++ [pb]) hpre hub hnal'
          rw [hgo2]
          refine ⟨_, _, ⟨x.addr, x.bsize + nb.bsize + 16, false⟩, hcnf.1,
            by simp, rfl, le_refl _, ?_, ?_, hcnf.2.1, hcnf.2.2.1,
            hcnf.2.2.2, fun _ => rfl, ?_⟩
          · show x.addr + x.bsize ≤ x.addr + (x.bsize + nb.bsize + 16)
            omega
          · intro c hc
            exact alloc_pres_two hc hpre.xfree hnal' rfl
          · intro _ hf
            rw [hgapb, hpal] at hf
            cases hf
    · have hpal' : pb.alloc = false := by
        cases hb : pb.alloc
        · rfl
        · exact absurd hb hpal
      cases v with
      | nil =>
        have h1 := tilesB_nil.1 htv
        have hvend : x.addr + x.bsize + 16 = s.hi - 8 := by omega
        have hga : get_allocated s.mem (next_blk s.mem x.addr) = true := by
          rw [hnxv]
          exact hgaepi hvend
        have hgo := coalGo_ft (s := s) (b := x.addr)
          (by rw [hgapb]; exact hpal') hga
        have harg : add64 (get_size s.mem x.addr)
            (add64 (get_size s.mem pb.addr) 16) =
            pb.bsize + x.bsize + 16 := by
          have eb1 : add64 pb.bsize 16 = pb.bsize + 16 := add64_eq (by omega)
          have eb2 : add64 x.bsize (pb.bsize + 16) =
              x.bsize + (pb.bsize + 16) := add64_eq (by omega)
          rw [hsizex, hpbok.size_head, eb1, eb2]
          omega
        have hgo2 : coalesce s x.addr =
            coalMerge (remove_node s pb.addr) pb.addr
              (pb.bsize + x.bsize + 16) := by
          rw [hco, hgo, hprevb, harg]
        have hcfn := coalCaseFN (v := []) hpre hpal'
          (fun b hb => by cases hb)
        rw [hgo2]
        refine ⟨_, _, ⟨pb.addr, pb.bsize + x.bsize + 16, false⟩, hcfn.1,
          by simp, rfl, by show pb.addr ≤ x.addr; omega, ?_, ?_,
          hcfn.2.1, hcfn.2.2.1, hcfn.2.2.2, ?_, fun _ _ => hprevb.symm⟩
        · show x.addr + x.bsize ≤ pb.addr + (pb.bsize + x.bsize + 16)
          omega
        · intro c hc
          rw [hassoc]
          exact alloc_pres_two hc hpal' hpre.xfree rfl
        · intro h9
          rcases h9 with h8 | hpt
          · exact absurd h8 hx8ne
          · rw [hgapb, hpal'] at hpt
            cases hpt
      | cons nb v2 =>
        have hnbmem : nb ∈ (u2 ++ [pb]) ++ x :: nb :: v2 := by simp
        have hnbok := hpre.blocks nb hnbmem
        have hnbb := tilesB_mem hpre.tiles nb hnbmem
        have htvc := htv
        rw [tilesB_cons] at htvc
        obtain ⟨hnba, htv2⟩ := htvc
        have hnbaddr : nb.addr = x.addr + x.bsize + 16 := by omega
        have hganb : get_allocated s.mem (next_blk s.mem x.addr) =
            nb.alloc := by
          rw [hnxv, ← hnbaddr]
          exact hnbok.alloc_head (by omega)
        by_cases hnal : nb.alloc = true
        · have hgo := coalGo_ft (s := s) (b := x.addr)
            (by rw [hgapb]; exact hpal') (by rw [hganb, hnal])
          have harg : add64 (get_size s.mem x.addr)
              (add64 (get_size s.mem pb.addr) 16) =
              pb.bsize + x.bsize + 16 := by
            have eb1 : add64 pb.bsize 16 = pb.bsize + 16 := add64_eq (by omega)
            have eb2 : add64 x.bsize (pb.bsize + 16) =
                x.bsize + (pb.bsize + 16) := add64_eq (by omega)
            rw [hsizex, hpbok.size_head, eb1, eb2]
            omega
          have hgo2 : coalesce s x.addr =
              coalMerge (remove_node s pb.addr) pb.addr
                (pb.bsize + x.bsize + 16) := by
            rw [hco, hgo, hprevb, harg]
          have hcfn := coalCaseFN (v := nb :: v2) hpre hpal'
            (fun b hb => by
              simp only [List.head?_cons, Option.some.injEq] at hb
              rw [← hb]
              exact hnal)
          rw [hgo2]
          refine ⟨_, _, ⟨pb.addr, pb.bsize + x.bsize + 16, false⟩, hcfn.1,
            by simp, rfl, by show pb.addr ≤ x.addr; omega, ?_, ?_,
            hcfn.2.1, hcfn.2.2.1, hcfn.2.2.2, ?_, fun _ _ => hprevb.symm⟩
          · show x.addr + x.bsize ≤ pb.addr + (pb.bsize + x.bsize + 16)
            omega
          · intro c hc
            rw [hassoc]
            exact alloc_pres_two hc hpal' hpre.xfree rfl
          · intro h9
            rcases h9 with h8 | hpt
            · exact absurd h8 hx8ne
            · rw [hgapb, hpal'] at hpt
              cases hpt
        · have hnal' : nb.alloc = false := by
            cases hb : nb.alloc
            · rfl
            · exact absurd hb hnal
          have hgo := coalGo_ff (s := s) (b := x.addr)
            (by rw [hgapb]; exact hpal') (by rw [hganb, hnal'])
          have harg : add64 (get_size s.mem x.addr)
              (add64 (add64 (get_size s.mem pb.addr)
                (get_size s.mem nb.addr)) 32) =
              pb.bsize + x.bsize + nb.bsize + 32 := by
            have eb1 : add64 pb.bsize nb.bsize = pb.bsize + nb.bsize :=
              add64_eq (by omega)
            have eb2 : add64 (pb.bsize + nb.bsize) 32 =
                pb.bsize + nb.bsize + 32 := add64_eq (by omega)
            have eb3 : add64 x.bsize (pb.bsize + nb.bsize + 32) =
                x.bsize + (pb.bsize + nb.bsize + 32) := add64_eq (by omega)
            rw [hsizex, hpbok.size_head, hnbok.size_head, eb1, eb2, eb3]
            omega
          have hgo2 : coalesce s x.addr =
              coalMerge (remove_node (remove_node s pb.addr) nb.addr)
                pb.addr (pb.bsize + x.bsize + nb.bsize + 32) := by
            rw [hco, hgo, hprevb, hnxv, ← hnbaddr, harg]
          have hcff := coalCaseFF hpre hpal' hnal'
          rw [hgo2]
          refine ⟨_, _,
            ⟨pb.addr, pb.bsize + x.bsize + nb.bsize + 32, false⟩, hcff.1,
            by simp, rfl, by show pb.addr ≤ x.addr; omega, ?_, ?_,
            hcff.2.1, hcff.2.2.1, hcff.2.2.2, ?_, fun _ _ => hprevb.symm⟩
          · show x.addr + x.bsize ≤
              pb.addr + (pb.bsize + x.bsize + nb.bsize + 32)
            omega
          · intro c hc
            rw [hassoc]
            exact alloc_pres_three hc hpal' hpre.xfree hnal' rfl
          · intro h9
            rcases h9 with h8 | hpt
            · exact absurd h8 hx8ne
            · rw [hgapb, hpal'] at hpt
              cases hpt

theorem coalOKX_of_coalOK : ∀ {l : List BlockD} {x : BlockD},
    coalOK l = true → coalOKX x l = true := by
  intro l
  induction l with
  | nil => intro x _; rfl
  | cons b r ih =>
    intro x h
    apply coalOKX_cons_of (ih (coalOK_tail h))
    intro c hc
    cases r with
    | nil => cases hc
    | cons d t =>
      simp only [List.head?_cons, Option.some.injEq] at hc
      rw [← hc]
      rcases coalOK_pair h with h1 | h1
      · exact Or.inr (Or.inr (Or.inl h1))
      · exact Or.inr (Or.inr (Or.inr h1))

theorem coalOKX_mid_self : ∀ {u : List BlockD} {x : BlockD} {v : List BlockD},
    coalOKX x u = true → coalOKX x v = true →
    coalOKX x (u ++ x :: v) = true := by
  intro u
  induction u with
  | nil =>
    intro x v _ hv
    apply coalOKX_cons_of hv
    intro c _
    exact Or.inl rfl
  | cons b r ih =>
    intro x v h hv
    rw [List.cons_append]
    apply coalOKX_cons_of (ih (coalOKX_tail h) hv)
    intro c hc
    cases r with
    | nil =>
      simp only [List.nil_append, List.head?_cons, Option.some.injEq] at hc
      rw [← hc]
      exact Or.inr (Or.inl rfl)
    | cons d t =>
      simp only [List.cons_append, List.head?_cons, Option.some.injEq] at hc
      rw [← hc]
      exact coalOKX_pair h

theorem tilesB_replace {u v : List BlockD} {b x : BlockD} {a e : Nat}
    (h : tilesB a (u ++ b :: v) e = true) (haddr : x.addr = b.addr)
    (hsz : x.bsize = b.bsize) : tilesB a (u ++ x :: v) e = true := by
  obtain ⟨h1, h2⟩ := tilesB_append.1 h
  rw [tilesB_cons] at h2
  apply tilesB_append.2
  refine ⟨h1, ?_⟩
  rw [tilesB_cons]
  refine ⟨by rw [haddr]; exact h2.1, ?_⟩
  rw [hsz]
  exact h2.2

/-- `free` on the payload pointer of a live allocated block: the heap
stays well formed, with coalescing maximal again, and all other
allocated blocks untouched. -/
theorem free_preserve {s : St} {bs : List BlockD} {fl : List Nat}
    (hInv : Inv s bs fl) {b : BlockD} (hb : b ∈ bs) (hba : b.alloc = true) :
    ∃ bs2 fl2, Inv (free s (b.addr + 8)) bs2 fl2 ∧
      (∀ c : BlockD, c.alloc = true → c ≠ b → (c ∈ bs ↔ c ∈ bs2)) ∧
      (∀ c ∈ bs2, c.alloc = true → c ∈ bs ∧ c ≠ b) ∧
      (free s (b.addr + 8)).hi = s.hi ∧
      (free s (b.addr + 8)).maxH = s.maxH := by
  obtain ⟨u, v, hbs⟩ := List.append_of_mem hb
  subst hbs
  have hbok := hInv.blocks b hb
  have hbb := hInv.mem_bounds hb
  have hbsz := hbok.2.2.2
  have hb16 := hbok.2.2.1
  have hhi48 := hInv.hi48
  have hhi60 := hInv.hi_lt
  have hstrict := tilesB_strict hInv.tiles
  have hnexb : ∀ c ∈ u ++ v, c ≠ b := mem_append_ne_mid hstrict
  have hsub : sub64 (b.addr + 8) 8 = b.addr :=
    sub64_eq (by omega) (by omega)
  have hsize : get_size s.mem b.addr = b.bsize := hbok.size_head
  -- the two tag stores of `free`
  have hfm : freedMem s b.addr =
      wW (wW s.mem b.addr b.bsize) (b.addr + b.bsize + 8) b.bsize := by
    unfold freedMem
    rw [lsb_a_zero, hsize, get_size_wW_same _ _ (by omega)]
    have h2 : b.bsize - b.bsize % 2 = b.bsize := by omega
    have ef1 : add64 b.addr b.bsize = b.addr + b.bsize := add64_eq (by omega)
    have ef2 : add64 (b.addr + b.bsize) 8 = b.addr + b.bsize + 8 :=
      add64_eq (by omega)
    rw [h2, lsb_a_zero, ef1, ef2]
  have hga : get_allocated s.mem b.addr = true := by
    rw [hbok.alloc_head (by omega)]
    exact hba
  have hfree : free s (b.addr + 8) =
      coalesce { s with
        mem := wW (wW s.mem b.addr b.bsize) (b.addr + b.bsize + 8) b.bsize }
        b.addr := by
    unfold free
    rw [if_neg (by omega), hsub, hga, if_neg (by simp), hfm]
  set x : BlockD := ⟨b.addr, b.bsize, false⟩ with hx
  set m2 : Nat → Nat :=
    wW (wW s.mem b.addr b.bsize) (b.addr + b.bsize + 8) b.bsize with hm2
  have hnodes : ∀ z ∈ fl, ∃ f ∈ u ++ b :: v, f.alloc = false ∧
      z = f.addr + 8 := fun z hz => hInv.fl_mem hz
  have hextent : ∀ f ∈ u ++ b :: v, f ≠ b →
      f.addr + f.bsize + 16 ≤ b.addr ∨ b.addr + b.bsize + 16 ≤ f.addr := by
    intro f hf hfne
    rcases pairwise_cases (tilesB_pairwise hInv.tiles) hf hb with hc | hc | hc
    · exact Or.inl hc
    · exact Or.inr hc
    · exact absurd hc hfne
  have hfne_of_free : ∀ f ∈ u ++ b :: v, f.alloc = false → f ≠ b := by
    intro f hf hfa heq
    rw [heq, hba] at hfa
    cases hfa
  -- the pre-coalesce state
  have hxok : BlockOK m2 x := by
    refine ⟨?_, ?_, hb16, hbsz⟩
    · show rW m2 b.addr = encB x
      rw [hm2, rW_wW_ne _ (by omega), rW_wW_lt _ _ (by omega)]
      rfl
    · show rW m2 (b.addr + 8 + b.bsize) = encB x
      have h9 : b.addr + 8 + b.bsize = b.addr + b.bsize + 8 := by omega
      rw [hm2, h9, rW_wW_lt _ _ (by omega)]
      rfl
  have hok2 : ∀ c ∈ u ++ b :: v, c ≠ b → BlockOK m2 c := by
    intro c hc hcne
    have hce := hextent c hc hcne
    have hcs := (hInv.blocks c hc).2.2.2
    exact BlockOK_wW (BlockOK_wW (hInv.blocks c hc) _ _ (by omega)
      (by omega)) _ _ (by omega) (by omega)
  have hpre : PreCo { s with mem := m2 } (u ++ x :: v) fl x := by
    refine ⟨?_, ?_, ?_, ?_, ?_, ?_, ?_, hInv.hi16, hInv.hiMax, hInv.maxB,
      by simp, by simp, rfl⟩
    · exact tilesB_replace hInv.tiles rfl rfl
    · show rW m2 0 = 1
      rw [hm2, rW_wW_ne _ (by omega), rW_wW_ne _ (by omega)]
      exact hInv.pro
    · show rW m2 (s.hi - 8) = 1
      rw [hm2, rW_wW_ne _ (by omega), rW_wW_ne _ (by omega)]
      exact hInv.epi
    · intro c hc
      rcases List.mem_append.1 hc with h1 | h1
      · exact hok2 c (List.mem_append_left _ h1)
          (hnexb c (List.mem_append_left _ h1))
      · rcases List.mem_cons.1 h1 with rfl | h2
        · exact hxok
        · exact hok2 c
            (List.mem_append_right _ (List.mem_cons_of_mem b h2))
            (hnexb c (List.mem_append_right _ h2))
    · show CoalescedX (u ++ x :: v) x
      have hcu : coalOKX x u = true :=
        coalOKX_of_coalOK (coalOK_append_left hInv.coal)
      have hcv : coalOKX x v = true :=
        coalOKX_of_coalOK (coalOK_tail (coalOK_append_right hInv.coal))
      exact coalOKX_mid_self hcu hcv
    · show chainB m2 s.first 0 fl = true
      rw [hm2, chainB_wW_out, chainB_wW_out]
      · exact hInv.chain
      · intro z hz
        obtain ⟨f, hf, hfa, rfl⟩ := hnodes z hz
        have := hextent f hf (hfne_of_free f hf hfa)
        have := (hInv.blocks f hf).2.2.2
        omega
      · intro z hz
        obtain ⟨f, hf, hfa, rfl⟩ := hnodes z hz
        have := hextent f hf (hfne_of_free f hf hfa)
        have := (hInv.blocks f hf).2.2.2
        omega
    · show List.Perm ((x.addr + 8) :: fl) (freeNodes (u ++ x :: v))
      have h1 : freeNodes (u ++ b :: v) = freeNodes u ++ freeNodes v := by
        rw [freeNodes_append, freeNodes_cons_alloc hba]
      have h2 : freeNodes (u ++ x :: v) =
          freeNodes u ++ (b.addr + 8) :: freeNodes v := by
        rw [freeNodes_append, freeNodes_cons_free rfl]
      rw [h2]
      refine List.Perm.trans ?_ List.perm_middle.symm
      apply List.Perm.cons
      have := hInv.perm
      rwa [h1] at this
  have hcp := coalesce_preserve hpre
  obtain ⟨bs2, fl2, y, hcInv, hy, hya, hyle, hyspan, hiff, hhi, hmax, _, _, _⟩
    := hcp
  rw [hfree]
  refine ⟨bs2, fl2, hcInv, ?_, ?_, hhi, hmax⟩
  · intro c hca hcb
    have h1 : c ∈ u ++ b :: v ↔ c ∈ u ++ x :: v := by
      simp only [List.mem_append, List.mem_cons]
      constructor
      · rintro (h | h | h)
        · exact Or.inl h
        · exact absurd h hcb
        · exact Or.inr (Or.inr h)
      · rintro (h | h | h)
        · exact Or.inl h
        · rw [h, hx] at hca
          cases hca
        · exact Or.inr (Or.inr h)
    exact h1.trans (hiff c hca)
  · intro c hc hca
    have h2 : c ∈ u ++ x :: v := (hiff c hca).2 hc
    have h3 : c ∈ u ++ v := by
      rcases List.mem_append.1 h2 with h4 | h4
      · exact List.mem_append_left _ h4
      · rcases List.mem_cons.1 h4 with rfl | h5
        · rw [hx] at hca
          cases hca
        · exact List.mem_append_right _ h5
    constructor
    · rcases List.mem_append.1 h3 with h4 | h4
      · exact List.mem_append_left _ h4
      · exact List.mem_append_right _ (List.mem_cons_of_mem b h4)
    · exact hnexb c h3

/-- C3: from any well-formed state, a successful `allocate(n)` returns a
pointer whose address is a multiple of 16. -/
theorem C3_alignment (s : St) (bs : List BlockD) (fl : List Nat) (n : Nat)
    (hInv : Inv s bs fl) (_hn : n < 2 ^ 64) :
    (malloc s n).1 ≠ 0 → (malloc s n).1 % 16 = 0 := by
  intro hsucc
  by_cases h0 : n = 0
  · rw [h0, malloc_zero] at hsucc
    exact absurd rfl hsucc
  rcases (first_fit_mem hInv.chain :
      first_fit s.mem (align n) (s.hi + 1) s.first = 0 ∨
        ∃ x ∈ fl, first_fit s.mem (align n) (s.hi + 1) s.first = sub64 x 8 ∧
          get_allocated s.mem (sub64 x 8) = false ∧
          align n ≤ get_size s.mem (sub64 x 8)) with
    hff | ⟨x, hx, heq, hfree, hfit⟩
  · rw [malloc_miss h0 hff]
    rcases expand_result_mod hInv (extendsizeOf (align n)) with hz | hmod
    · show (if (expand_heap s (extendsizeOf (align n))).1 = 0 then
          ((0 : Nat), (expand_heap s (extendsizeOf (align n))).2)
        else (add64 (expand_heap s (extendsizeOf (align n))).1 8,
          place (expand_heap s (extendsizeOf (align n))).2
            (expand_heap s (extendsizeOf (align n))).1 (align n))).1 % 16 = 0
      rw [if_pos hz]
      rfl
    · by_cases hz2 : (expand_heap s (extendsizeOf (align n))).1 = 0
      · show (if (expand_heap s (extendsizeOf (align n))).1 = 0 then
            ((0 : Nat), (expand_heap s (extendsizeOf (align n))).2)
          else (add64 (expand_heap s (extendsizeOf (align n))).1 8,
            place (expand_heap s (extendsizeOf (align n))).2
              (expand_heap s (extendsizeOf (align n))).1 (align n))).1 % 16 = 0
        rw [if_pos hz2]
        rfl
      · show (if (expand_heap s (extendsizeOf (align n))).1 = 0 then
            ((0 : Nat), (expand_heap s (extendsizeOf (align n))).2)
          else (add64 (expand_heap s (extendsizeOf (align n))).1 8,
            place (expand_heap s (extendsizeOf (align n))).2
              (expand_heap s (extendsizeOf (align n))).1 (align n))).1 % 16 = 0
        rw [if_neg hz2]
        show add64 (expand_heap s (extendsizeOf (align n))).1 8 % 16 = 0
        rw [add64_mod16]
        omega
  · obtain ⟨b, hbmem, hbfree, hxe⟩ := hInv.fl_mem hx
    have hb1 := hInv.mem_bounds hbmem
    have hb2 := hInv.addr_mod hbmem
    have hhilt := hInv.hi_lt
    have hsub : sub64 x 8 = b.addr := by
      rw [hxe]
      have := sub64_eq (a := b.addr + 8) (b := 8) (by omega) (by omega)
      omega
    rw [malloc_hit h0 (heq.trans hsub) (by omega)]
    show add64 b.addr 8 % 16 = 0
    rw [add64_mod16]
    omega


/-- Witness certificate: `heap0` is well-formed with block list `bs0` and
free list `fl0`. -/
theorem Inv_heap0 : Inv heap0 bs0 fl0 :=
  ⟨by decide, by decide, by decide, by decide, by decide, by decide,
    by decide, by decide, by decide, by decide, by decide⟩

/-- Witness for C3 at a concrete input: `allocate 100` on the fresh heap
returns 16, a multiple of 16. -/
theorem C3_alignment_witness :
    (malloc heap0 100).1 ≠ 0 ∧ (malloc heap0 100).1 % 16 = 0 :=
  ⟨by decide, C3_alignment heap0 bs0 fl0 100 Inv_heap0 (by decide) (by decide)⟩

/-! ### Zero-filling of `calloc` (C9 amended) -/

theorem mem_memset_zero_read (m : Nat → Nat) (p : Nat) :
    ∀ k, ∀ i < k, mem_memset m p 0 k (add64 p i) % 256 = 0 := by
  intro k
  induction k with
  | zero => intro i hi; omega
  | succ j ih =>
    intro i hi
    show byteW (mem_memset m p 0 j) (add64 p j) 0 (add64 p i) % 256 = 0
    by_cases hij : add64 p i = add64 p j
    · rw [hij, byteW_same]
    · rw [byteW_ne _ _ hij]
      have hij2 : i ≠ j := fun h => hij (by rw [h])
      exact ih i (by omega)

theorem calloc_eq (s : St) (c e : Nat) :
    calloc s c e =
      if (malloc s (mul64 e c)).1 ≠ 0 then
        ((malloc s (mul64 e c)).1,
          { (malloc s (mul64 e c)).2 with
            mem := mem_memset (malloc s (mul64 e c)).2.mem
              (malloc s (mul64 e c)).1 0 (mul64 e c) })
      else malloc s (mul64 e c) := rfl

/-- C9 (amended to the wrapped product): `zero_allocate(count, elem_size)`
requests `count * elem_size mod 2^64` bytes, and whenever it returns a
non-null pointer every one of those bytes reads as zero. -/
theorem C9_calloc_zero (s : St) (c e : Nat) :
    (calloc s c e).1 = (malloc s (mul64 e c)).1 ∧
      ((calloc s c e).1 ≠ 0 → ∀ i < mul64 e c,
        (calloc s c e).2.mem (add64 ((calloc s c e).1) i) % 256 = 0) := by
  rw [calloc_eq]
  by_cases h : (malloc s (mul64 e c)).1 = 0
  · rw [if_neg (by simpa using h)]
    exact ⟨rfl, fun hn => absurd h hn⟩
  · rw [if_pos (by simpa using h)]
    refine ⟨rfl, fun _ i hi => ?_⟩
    exact mem_memset_zero_read _ _ _ i hi

/-! ### Return value of `malloc` (C5 amended) -/

theorem align_le_max (x : Nat) : align x ≤ 2 ^ 64 - 16 := by
  unfold align
  omega

theorem extendsizeOf_lb (size : Nat) : 4096 ≤ extendsizeOf size := by
  unfold extendsizeOf
  split <;> omega

theorem extendsizeOf_ub {size : Nat} (_h : size ≤ 2 ^ 64 - 16)
    (h16 : size % 16 = 0) : extendsizeOf size ≤ 2 ^ 64 - 16 := by
  unfold extendsizeOf add64
  split <;> omega

theorem extFail_iff {s : St} {n : Nat} :
    extFail s n ↔ (first_fit s.mem (align n) (s.hi + 1) s.first = 0 ∧
      s.maxH < s.hi + align (extendsizeOf (align n))) := Iff.rfl

theorem get_allocated_false_ne {m : Nat → Nat} {a : Nat}
    (h : get_allocated m a = false) : a ≠ 0 := by
  intro ha
  rw [ha, get_allocated_zero] at h
  cases h

/-- For a non-degenerate extension request, the footer `expand_heap`
reads to find its predecessor is the old last block's footer. -/
theorem expMem_prev_size_val {s : St} {bs : List BlockD} {fl : List Nat}
    (hInv : Inv s bs fl) {bytes : Nat} (hz : 16 ≤ bytes)
    (hlt : bytes ≤ 2 ^ 60) :
    ∃ bb ∈ bs, bb.addr + bb.bsize + 16 = s.hi - 8 ∧
      get_size (expMem s bytes) (sub64 (sub64 s.hi 8) 8) = bb.bsize := by
  have hhi48 := hInv.hi48
  have hhilt := hInv.hi_lt
  have h1 : sub64 s.hi 8 = s.hi - 8 := sub64_eq (by omega) (by omega)
  have hr8 : sub64 (sub64 s.hi 8) 8 = s.hi - 16 := by
    rw [h1, sub64_eq (by omega) (by omega)]
    omega
  have hA1 : sub64 (add64 s.hi bytes) 8 = s.hi + bytes - 8 := by
    rw [add64_eq (by omega)]; exact sub64_eq (by omega) (by omega)
  have hA2 : sub64 (add64 s.hi bytes) 16 = s.hi + bytes - 16 := by
    rw [add64_eq (by omega)]; exact sub64_eq (by omega) (by omega)
  obtain ⟨bb, hbb, hbe⟩ := hInv.last_block
  refine ⟨bb, hbb, hbe, ?_⟩
  unfold expMem
  rw [hr8]
  rw [get_size_wW_ne _ (by omega), get_size_wW_ne _ (by omega),
    get_size_wW_ne _ (by omega)]
  have hfoot : bb.addr + 8 + bb.bsize = s.hi - 16 := by omega
  have hsf := (hInv.blocks bb hbb).size_foot
  rw [hfoot] at hsf
  exact hsf

/-- Result of `expand_heap` for the requests `malloc` makes: failure
leaves the state untouched and happens exactly when the grow request
exceeds the capacity; success returns a small block address congruent to
8 modulo 16. -/
theorem expand_result {s : St} {bs : List BlockD} {fl : List Nat}
    (hInv : Inv s bs fl) {bytes0 : Nat} (h4096 : 4096 ≤ bytes0)
    (hmax : bytes0 ≤ 2 ^ 64 - 16) :
    (s.maxH < s.hi + align bytes0 ∧ expand_heap s bytes0 = (0, s)) ∨
      (s.hi + align bytes0 ≤ s.maxH ∧ 8 ≤ (expand_heap s bytes0).1 ∧
        (expand_heap s bytes0).1 ≤ 2 ^ 60 ∧ (expand_heap s bytes0).1 % 16 = 8) := by
  have hhi48 := hInv.hi48
  have hhilt := hInv.hi_lt
  have hmaxB := hInv.maxB
  have hhi16 := hInv.hi16
  have hal : 4096 ≤ align bytes0 := by
    have := align_ge (x := bytes0) (by omega)
    omega
  by_cases hc : s.hi + align bytes0 ≤ s.maxH
  · right
    refine ⟨hc, ?_⟩
    rw [expand_heap_succ (by omega) hc]
    have h1 : sub64 s.hi 8 = s.hi - 8 := sub64_eq (by omega) (by omega)
    obtain ⟨bb, hbb, hbe, hval⟩ := expMem_prev_size_val hInv
      (by omega : 16 ≤ align bytes0) (by omega : align bytes0 ≤ 2 ^ 60)
    have hbnd := hInv.mem_bounds hbb
    split
    · -- predecessor free: the result is the last block's address
      show 8 ≤ prev_blk (expMem s (align bytes0)) (sub64 s.hi 8) ∧ _
      unfold prev_blk
      rw [hval, h1]
      have hin : sub64 (s.hi - 8) bb.bsize = s.hi - 8 - bb.bsize :=
        sub64_eq (by omega) (by omega)
      rw [hin]
      have hout : sub64 (s.hi - 8 - bb.bsize) 16 = s.hi - 8 - bb.bsize - 16 :=
        sub64_eq (by omega) (by omega)
      rw [hout]
      refine ⟨by omega, by omega, ?_⟩
      have hmod := hInv.addr_mod hbb
      have hsz := (hInv.blocks bb hbb).2.2.1
      omega
    · show 8 ≤ sub64 s.hi 8 ∧ _
      rw [h1]
      exact ⟨by omega, by omega, by omega⟩
  · left
    exact ⟨by omega, expand_heap_fail (by omega)⟩

/-- C5 (amended to non-zero requests): `allocate(n)` with `n > 0` returns
the failure sentinel exactly when heap extension failed, and otherwise a
pointer eight bytes past the header of the chosen block. -/
theorem C5_return (s : St) (bs : List BlockD) (fl : List Nat) (n : Nat)
    (hInv : Inv s bs fl) (hn : n ≠ 0) :
    ((malloc s n).1 = 0 ↔ extFail s n) ∧
      ((malloc s n).1 ≠ 0 → (malloc s n).1 = add64 (chosenBlock s n) 8) := by
  have hhilt := hInv.hi_lt
  rcases (first_fit_mem hInv.chain :
      first_fit s.mem (align n) (s.hi + 1) s.first = 0 ∨
        ∃ x ∈ fl, first_fit s.mem (align n) (s.hi + 1) s.first = sub64 x 8 ∧
          get_allocated s.mem (sub64 x 8) = false ∧
          align n ≤ get_size s.mem (sub64 x 8)) with
    hff | ⟨x, hx, heq, hfree, hfit⟩
  · -- miss: heap extension decides the outcome
    rw [malloc_miss hn hff]
    rcases expand_result hInv (extendsizeOf_lb (align n))
        (extendsizeOf_ub (align_le_max n) (align_mod16 n)) with
      ⟨hover, heq2⟩ | ⟨hc, h8, h60, hmod⟩
    · rw [heq2]
      constructor
      · rw [extFail_iff]
        show ((0 : Nat) = 0 ↔ _)
        exact ⟨fun _ => ⟨hff, hover⟩, fun _ => rfl⟩
      · intro hne
        exact absurd rfl hne
    · have hne : (expand_heap s (extendsizeOf (align n))).1 ≠ 0 := by omega
      constructor
      · show ((if (expand_heap s (extendsizeOf (align n))).1 = 0 then
            ((0 : Nat), (expand_heap s (extendsizeOf (align n))).2)
          else (add64 (expand_heap s (extendsizeOf (align n))).1 8,
            place (expand_heap s (extendsizeOf (align n))).2
              (expand_heap s (extendsizeOf (align n))).1 (align n))).1 = 0 ↔ _)
        rw [if_neg hne]
        have hadd : add64 (expand_heap s (extendsizeOf (align n))).1 8 =
            (expand_heap s (extendsizeOf (align n))).1 + 8 :=
          add64_eq (by omega)
        constructor
        · intro h0
          rw [hadd] at h0
          omega
        · intro hef
          have h2 := (extFail_iff.1 hef).2
          omega
      · intro _
        show (if (expand_heap s (extendsizeOf (align n))).1 = 0 then
            ((0 : Nat), (expand_heap s (extendsizeOf (align n))).2)
          else (add64 (expand_heap s (extendsizeOf (align n))).1 8,
            place (expand_heap s (extendsizeOf (align n))).2
              (expand_heap s (extendsizeOf (align n))).1 (align n))).1 =
          add64 (chosenBlock s n) 8
        rw [if_neg hne]
        unfold chosenBlock
        simp only [hff, ne_eq, not_true_eq_false, if_false]
  · -- hit: a free-list block is used
    obtain ⟨b, hbmem, hbfree, hxe⟩ := hInv.fl_mem hx
    have hb1 := hInv.mem_bounds hbmem
    have hsub : sub64 x 8 = b.addr := by
      rw [hxe]
      have := sub64_eq (a := b.addr + 8) (b := 8) (by omega) (by omega)
      omega
    have hne : b.addr ≠ 0 := by omega
    rw [malloc_hit hn (heq.trans hsub) hne]
    constructor
    · show (add64 b.addr 8 = 0 ↔ _)
      have hadd : add64 b.addr 8 = b.addr + 8 := add64_eq (by omega)
      constructor
      · intro h0
        rw [hadd] at h0
        omega
      · intro hef
        have h2 := (extFail_iff.1 hef).1
        rw [heq, hsub] at h2
        exact absurd h2 hne
    · intro _
      show add64 b.addr 8 = add64 (chosenBlock s n) 8
      unfold chosenBlock
      simp only [heq, hsub, ne_eq, hne, not_false_eq_true, if_true]


/-- Witness for C9 at a concrete input: `zero_allocate 2 8` returns the
same pointer as `allocate 16` and byte 3 of the payload reads zero. -/
theorem C9_calloc_zero_witness :
    (calloc heap0 2 8).2.mem (add64 ((calloc heap0 2 8).1) 3) % 256 = 0 :=
  (C9_calloc_zero heap0 2 8).2 (by decide) 3 (by decide)

/-- Witness for C5 at a concrete input: `allocate 100` on the fresh heap
succeeds and returns the payload of the chosen block. -/
theorem C5_return_witness :
    (malloc heap0 100).1 = add64 (chosenBlock heap0 100) 8 :=
  (C5_return heap0 bs0 fl0 100 Inv_heap0 (by decide)).2 (by decide)

/-! ### Claim theorems: the direct branches of `realloc` and `free` -/

/-- C7: for a non-null pointer and a non-zero request, if the block's
recorded capacity is at least the newly required aligned size plus the
header/footer overhead (the source's `needed_size`), `resize` returns the
pointer unchanged and performs no write at all: heap memory and free list
are exactly as before the call. -/
theorem C7_realloc_in_place (s : St) (p n : Nat) (hp : p ≠ 0) (hn : n ≠ 0)
    (hcap : add64 (align n) 16 ≤ get_size s.mem (sub64 p 8)) :
    realloc s p n = some (p, s) := by
  simp [realloc, hp, hn, hcap]

/-- C8: `release(null)` is a no-op, and `release(p)` on a block whose
allocated bit is already clear returns with memory and free list exactly
as before. -/
theorem C8_free_noop (s : St) (p : Nat) :
    free s 0 = s ∧ (get_allocated s.mem (sub64 p 8) = false → free s p = s) := by
  constructor
  · simp [free]
  · intro h
    by_cases hp : p = 0
    · simp [free, hp]
    · simp [free, hp, h]

/-- Witness for C7 at a concrete input: in the freshly initialised heap
the word at address 8 records capacity 4064, so resizing payload pointer
16 to one byte returns it unchanged. -/
theorem C7_realloc_in_place_witness : realloc heap0 16 1 = some (16, heap0) :=
  C7_realloc_in_place heap0 16 1 (by decide) (by decide) (by decide)

/-- Witness for C8 at a concrete input: releasing null and releasing the
(free) initial block at payload address 24 both leave `heap0` unchanged. -/
theorem C8_free_noop_witness : free heap0 0 = heap0 ∧ free heap0 24 = heap0 :=
  ⟨(C8_free_noop heap0 24).1, (C8_free_noop heap0 24).2 (by decide)⟩

/-! ### Counterexamples -/

/-- C6 counterexample: `resize(null, 50)` does not behave as
`allocate(50)` — the source dereferences `oldptr - 8` before its NULL
check, an invalid load at address `2^64 - 8` on the modelled target, so
the call faults instead of returning `allocate`'s result. -/
theorem C6_counterexample : realloc heap0 0 50 = none := rfl

/-- C1 counterexample: from the freshly initialised heap, the single call
`allocate(2^64 - 1)` returns a non-null pointer but leaves the heap with
a block whose header and footer do not match: `align` wraps the request
to size 0, `split` carves a zero-size block whose footer aliases its
free-list node, and the subsequent node surgery writes through the stale
word, landing an unaligned store across the block header.  After the
call returns, the heap no longer parses into blocks with agreeing
boundary tags. -/
theorem C1_counterexample :
    tagConsistent heap0 = true ∧ (malloc heap0 (2 ^ 64 - 1)).1 ≠ 0 ∧
      tagConsistent (malloc heap0 (2 ^ 64 - 1)).2 = false := by decide

/-- C2 counterexample: after `allocate 16` (→ 16), `allocate 16` (→ 48),
`release 16`, the call `allocate (2^64 - 1)` returns pointer 16 again
(its size wraps to 0 under `align`, so the freed 16-byte block "fits").
The outstanding allocations are then (16, 2^64 - 1) and (48, 16): their
payload ranges overlap and the first extends far beyond the heap end. -/
theorem C2_counterexample :
    c2s1.1 = 16 ∧ c2s2.1 = 48 ∧ c2s4.1 = 16 ∧
      ¬ RangesOK [(c2s4.1, 2 ^ 64 - 1), (c2s2.1, 16)] c2s4.2.hi := by
  refine ⟨by decide, by decide, by decide, ?_⟩
  intro h
  have h1 := h.2 (c2s4.1, 2 ^ 64 - 1) (by simp)
  revert h1
  decide

/-- C4 counterexample: allocate one block and release it; the release
coalesces the block at header 8 with the free remainder, producing the
freshly merged block.  Re-running `coalesce` on it is not a no-op: the
merged block is pushed onto the free list a second time, overwriting its
node's forward link (the word at address 16 changes from 0 to 16). -/
theorem C4_counterexample :
    rW (coalesce c4s2 8).mem 16 ≠ rW c4s2.mem 16 := by decide

/-- C5 counterexample: `allocate 0` returns the null failure sentinel
from the freshly initialised heap even though heap extension neither
failed nor was attempted (a first-fit block exists and the capacity is
ample), refuting "the failure sentinel is returned if and only if heap
extension failed" as a statement over all requests. -/
theorem C5_counterexample : (malloc heap0 0).1 = 0 ∧ ¬ extFail heap0 0 := by
  constructor
  · decide
  · intro h
    have h1 := h.1
    revert h1
    decide

/-- C9 counterexample: `zero_allocate (2^62 + 1) 4` wraps the `size_t`
byte count to 4, so a non-null pointer is returned whose block holds only
16 payload bytes even though `count * elem_size` is `2^64 + 4`; the byte
at offset 16 of the returned pointer (inside the range the claim
promises to zero) holds the footer value 17, not zero. -/
theorem C9_counterexample :
    c9s.1 ≠ 0 ∧ 16 < (2 ^ 62 + 1) * 4 ∧
      get_size c9s.2.mem (sub64 c9s.1 8) = 16 ∧
      c9s.2.mem (c9s.1 + 16) % 256 ≠ 0 := by decide

/-- C10: `remove_node` correctly unlinks any member of a well-formed free
list — interior, head, tail, or sole element are all the same erasure on
the abstract list — and removing the sole element (both links null)
leaves the list root pointer null. -/
theorem C10_remove_node (s : St) (fl : List Nat) (b : Nat)
    (henv : NodeEnv fl) (hnd : fl.Nodup)
    (hchain : chainB s.mem s.first 0 fl = true) (ha : b + 8 ∈ fl) :
    chainB (remove_node s b).mem (remove_node s b).first 0
        (fl.erase (b + 8)) = true ∧
      (fl = [b + 8] → (remove_node s b).first = 0) :=
  ⟨(remove_node_dll henv hnd hchain ha).1,
    (remove_node_dll henv hnd hchain ha).2.2.2.2⟩

/-- Witness for C10 at a concrete input: the fresh heap's free list is the
sole node 16 (block at 8); removing it empties the list and nulls the
root. -/
theorem C10_remove_node_witness :
    NodeEnv [16] ∧ [(16 : Nat)].Nodup ∧
      chainB heap0.mem heap0.first 0 [16] = true ∧ (8 : Nat) + 8 ∈ [16] ∧
      chainB (remove_node heap0 8).mem (remove_node heap0 8).first 0
          ([16].erase (8 + 8)) = true ∧
      ([16] = [8 + 8] → (remove_node heap0 8).first = 0) :=
  ⟨⟨by decide, by decide⟩, by decide, by decide, by decide,
    (C10_remove_node heap0 [16] 8 ⟨by decide, by decide⟩ (by decide)
        (by decide) (by decide)).1,
    (C10_remove_node heap0 [16] 8 ⟨by decide, by decide⟩ (by decide)
        (by decide) (by decide)).2⟩

/-- Well-formedness certificate for the heap after `allocate 16`. -/
theorem Inv_c4 : Inv c4s1.2 c4bs c4fl :=
  ⟨by decide, by decide, by decide, by decide, by decide, by decide,
    by decide, by decide, by decide, by decide, by decide⟩

/-- C4 (amended): releasing the payload pointer of a live allocated block
leaves a well-formed heap in which no two physically adjacent blocks are
both free — coalescing is eager and maximal.  The idempotence half of the
original claim is dropped: re-running `coalesce` on the freshly merged
block is not a no-op, since it pushes the block onto the free list a
second time (see the counterexample). -/
theorem C4_release_coalesced (s : St) (bs : List BlockD) (fl : List Nat)
    (b : BlockD) (hInv : Inv s bs fl) (hb : b ∈ bs) (hba : b.alloc = true) :
    ∃ bs2 fl2, Inv (free s (b.addr + 8)) bs2 fl2 ∧ Coalesced bs2 := by
  obtain ⟨bs2, fl2, h, _⟩ := free_preserve hInv hb hba
  exact ⟨bs2, fl2, h, h.coal⟩

/-- Witness for C4 at a concrete input: release of the 16-byte block
allocated from the fresh heap. -/
theorem C4_release_coalesced_witness :
    (⟨8, 16, true⟩ : BlockD) ∈ c4bs ∧
      (⟨8, 16, true⟩ : BlockD).alloc = true ∧
      ∃ bs2 fl2, Inv (free c4s1.2 (8 + 8)) bs2 fl2 ∧ Coalesced bs2 :=
  ⟨by decide, by decide,
    C4_release_coalesced c4s1.2 c4bs c4fl ⟨8, 16, true⟩ Inv_c4 (by decide)
      (by decide)⟩

end MM
